import Mathlib

/-!
Shallow embedding of `ini_config.hpp` (tcsullivan/ini-config).

The input text is modelled as a `List Nat` of character codes: the characters
of the C++ string literal WITHOUT its terminating NUL.  Reading one position
past the end of any list yields 0 (`hd0 [] = 0`), which models the implicit
NUL terminator of C strings and the zero-initialised tail of `kvp_buffer`;
`iseol 0 = true`, so every scan of the C++ code stops exactly where the model
stops.  The C++ do-while over lines may process one extra "line" that starts
at the final NUL; that line contributes nothing (it is blank), so the model
that stops at the empty suffix is extensionally identical — see
`lineSuffixesAux_eq_nextline` below for the per-step correspondence with
`nextline`.  Character codes are assumed to be ASCII (0..127), which is the
range where `char` signedness in `c > ' '` is immaterial.
-/

instance {e a : Type} [DecidableEq e] [DecidableEq a] : DecidableEq (Except e a) := fun
  | .ok x, .ok y =>
    if h : x = y then .isTrue (by rw [h]) else .isFalse (by intro hc; injection hc; contradiction)
  | .ok _, .error _ => .isFalse (by intro hc; injection hc)
  | .error _, .ok _ => .isFalse (by intro hc; injection hc)
  | .error x, .error y =>
    if h : x = y then .isTrue (by rw [h]) else .isFalse (by intro hc; injection hc; contradiction)

/-- Model of a character read through a possibly exhausted pointer:
the head of the list, or 0 (NUL) past the end. -/
def hd0 : List Nat → Nat
  | [] => 0
  | c :: _ => c

/-- Source lines 58-60: `isgraph(c) = c > ' ' && c != 0x7F`. -/
def isgraph (c : Nat) : Bool := 32 < c && c != 127

/-- Source lines 61-63: `iseol(c) = c == '\n' || c == '\0'`. -/
def iseol (c : Nat) : Bool := c == 10 || c == 0

/-- Source lines 64-66: `iscomment(c) = c == ';' || c == '#'`. -/
def iscomment (c : Nat) : Bool := c == 59 || c == 35

/-- Source lines 73-77: `nextline` advances to just past the first
end-of-line character. -/
def nextline (s : List Nat) : List Nat :=
  (s.dropWhile (fun c => !iseol c)).tail

/-- Leading-whitespace removal at the head of each line
(`for (; !iseol(*p) && !isgraph(*p); ++p);`, lines 116, 177, 198). -/
def skipws (s : List Nat) : List Nat :=
  s.dropWhile (fun c => !iseol c && !isgraph c)

/-- The suffix of the input after each end-of-line character, in order.
The do-while loops of lines 113-164, 174-183 and 195-233 visit exactly the
line starts `s, nextline s, nextline (nextline s), ...`; since every
character before a line start has been scanned, those are precisely the
suffixes following each end-of-line character. -/
def lineSuffixesAux : List Nat → List (List Nat)
  | [] => []
  | c :: rest => if iseol c then rest :: lineSuffixesAux rest else lineSuffixesAux rest

/-- The sequence of line-start suffixes the three do-while loops process:
the whole input first (do-while runs its body once unconditionally), then
every following line start until `nextline` reaches `Input.end()`
(the empty suffix). -/
def processedLines (s : List Nat) : List (List Nat) :=
  s :: (lineSuffixesAux s).takeWhile (fun t => !t.isEmpty)

/-- Correspondence between the structural `lineSuffixesAux` and the
pointer-walking `nextline` of the source. -/
theorem lineSuffixesAux_eq_nextline (s : List Nat) :
    lineSuffixesAux s = if s.any (fun c => iseol c) then nextline s :: lineSuffixesAux (nextline s) else [] := by
  induction s with
  | nil => simp [lineSuffixesAux]
  | cons c rest ih =>
    by_cases h : iseol c = true
    · simp [lineSuffixesAux, h, nextline, List.dropWhile, List.any_cons]
    · simp only [Bool.not_eq_true] at h
      simp only [lineSuffixesAux, h, if_false, List.any_cons, Bool.false_or]
      have hnl : nextline (c :: rest) = nextline rest := by
        simp [nextline, List.dropWhile, h]
      rw [hnl]
      exact ih

/-! ## Validator / Sizer (source lines 109-167) -/

/-- Name characters counted by the section do-while of lines 123-126:
the characters after `[` up to the first end-of-line or `]`. -/
def secNameV (t : List Nat) : List Nat :=
  t.takeWhile (fun c => !iseol c && c != 93)

/-- The character the section do-while of lines 123-126 stops on. -/
def secStopV (t : List Nat) : Nat :=
  hd0 (t.dropWhile (fun c => !iseol c && c != 93))

/-- The key loop of lines 134-146: returns the number of key characters
counted and the suffix at which the loop exits (head is `=` or end-of-line),
or the error thrown for a printable character after the key ended. -/
def keyScan : List Nat → Bool → Except String (Nat × List Nat)
  | [], _ => .ok (0, [])
  | c :: rest, keyend =>
    if iseol c then .ok (0, c :: rest)
    else if c == 61 then .ok (0, c :: rest)
    else if !keyend then
      if !isgraph c then keyScan rest true
      else
        match keyScan rest false with
        | .ok (n, r) => .ok (n + 1, r)
        | .error e => .error e
    else
      if isgraph c then .error "Invalid key!"
      else keyScan rest true

/-- The value loop of lines 153-158, counting side: number of characters
counted for the value (`valuestart` is the loop flag). -/
def valueCount : List Nat → Bool → Nat
  | [], _ => 0
  | c :: rest, valuestart =>
    if iseol c then 0
    else
      let vs := valuestart || isgraph c
      (if vs then 1 else 0) + valueCount rest vs

/-- One iteration of the validator do-while body (lines 114-163):
the number of buffer characters this line contributes, or the error thrown. -/
def verifyLine (s : List Nat) : Except String Nat :=
  let p := skipws s
  if iseol (hd0 p) || iscomment (hd0 p) then .ok 0
  else if hd0 p == 91 then
    if iseol (secStopV p.tail) then .error "Bad section tag!"
    else .ok ((secNameV p.tail).length + 2)
  else
    match keyScan p false with
    | .error e => .error e
    | .ok (k, r) =>
      if hd0 r != 61 then .error "Invalid key!"
      else
        let v := valueCount r.tail false
        if v == 0 then .error "No value!"
        else .ok (k + v + 2)

/-- Folding `verifyLine` over the processed lines: the first error wins
(the C++ `throw` aborts the whole consteval computation). -/
def verifyLines : List (List Nat) → Except String Nat
  | [] => .ok 0
  | t :: ts =>
    match verifyLine t with
    | .error e => .error e
    | .ok n =>
      match verifyLines ts with
      | .error e => .error e
      | .ok m => .ok (n + m)

/-- Source lines 109-167: `verify_and_size`. -/
def verify_and_size (s : List Nat) : Except String Nat :=
  verifyLines (processedLines s)

/-! ## Entry counter (source lines 170-186) -/

/-- One iteration of the `kvpcount` do-while body (lines 175-182). -/
def kvpLine (s : List Nat) : Nat :=
  let p := skipws s
  if iseol (hd0 p) || iscomment (hd0 p) || hd0 p == 91 then 0 else 1

/-- Source lines 170-186: `kvpcount`. -/
def kvpcount (s : List Nat) : Nat :=
  ((processedLines s).map kvpLine).sum

/-! ## Packer (source lines 191-235) -/

/-- The key loop of lines 212-221, writing side: the characters written for
the key and the suffix at which the loop exits. -/
def keyPack : List Nat → Bool → List Nat × List Nat
  | [], _ => ([], [])
  | c :: rest, keyend =>
    if iseol c then ([], c :: rest)
    else if c == 61 then ([], c :: rest)
    else if !keyend then
      if !isgraph c then keyPack rest true
      else
        let (w, r) := keyPack rest false
        (c :: w, r)
    else keyPack rest true

/-- The value loop of lines 226-231, writing side: the characters written
for the value. -/
def valueScan : List Nat → Bool → List Nat
  | [], _ => []
  | c :: rest, valuestart =>
    if iseol c then []
    else
      let vs := valuestart || isgraph c
      if vs then c :: valueScan rest vs else valueScan rest vs

/-- The section do-while of lines 204-206: `do { *bptr++ = *p++; } while
(*p != ']');` — note it copies the opening `[` and stops only on `]`
(no end-of-line check; validation guarantees a `]` on the line). -/
def secPack : List Nat → List Nat
  | [] => []
  | c :: rest => c :: rest.takeWhile (fun d => d != 93)

/-- One iteration of the `fill_kvp_buffer` do-while body (lines 196-232):
the characters written through `bptr` for this line. -/
def fillLine (s : List Nat) : List Nat :=
  let p := skipws s
  if iseol (hd0 p) || iscomment (hd0 p) then []
  else if hd0 p == 91 then secPack p ++ [0]
  else
    let (w, r) := keyPack p false
    w ++ [0] ++ valueScan r.tail false ++ [0]

/-- Concatenation of per-line writes. -/
def catLists : List (List Nat) → List Nat
  | [] => []
  | l :: ls => l ++ catLists ls

/-- All characters written through `bptr++` by `fill_kvp_buffer`
(lines 191-233), in order. -/
def fillWrites (s : List Nat) : List Nat :=
  catLists ((processedLines s).map fillLine)

/-- The packed buffer (source line 189): the writes followed by the final
`*bptr = '\0'` of line 234.  The C++ array is zero-initialised with length
`verify_and_size() + 1`; the C1 theorem shows the writes fill exactly the
first `verify_and_size()` cells, so the array contents are the writes plus
one trailing NUL. -/
def kvp_buffer (s : List Nat) : List Nat :=
  fillWrites s ++ [0]

/-! ## Abstract view of the packed content

`Item` is the per-line construct the validator recognises; the buffer is
proved below to be the concatenation of the flattened items.  The trimmed
names/keys/values are exactly the characters the packer writes. -/

inductive Item where
  | sec (name : List Nat)
  | entry (k v : List Nat)
deriving DecidableEq

/-- The construct a line contributes: nothing (blank/comment), a section
marker, or a key/value entry, with the spans trimmed exactly as the
validator counts and the packer writes them. -/
def itemLine (s : List Nat) : Option Item :=
  let p := skipws s
  if iseol (hd0 p) || iscomment (hd0 p) then none
  else if hd0 p == 91 then some (.sec (secNameV p.tail))
  else
    let (w, r) := keyPack p false
    some (.entry w (valueScan r.tail false))

/-- All constructs of the input, in line order. -/
def items (s : List Nat) : List Item :=
  (processedLines s).filterMap itemLine

/-- How an item is laid out in the packed buffer: a section marker keeps its
opening `[` (the iterator uses it as a tag) and drops the `]`; keys and
values are bare spans; every span is followed by one NUL. -/
def flattenItem : Item → List Nat
  | .sec name => 91 :: name ++ [0]
  | .entry k v => k ++ [0] ++ v ++ [0]

def flattenItems (its : List Item) : List Nat :=
  catLists (its.map flattenItem)

/-- The logical entries: each `.entry` paired with the nearest preceding
section name (or `none` before any marker); a run of consecutive markers
collapses to its last element. -/
def entriesFrom (cur : Option (List Nat)) : List Item → List (Option (List Nat) × List Nat × List Nat)
  | [] => []
  | .sec n :: rest => entriesFrom (some n) rest
  | .entry k v :: rest => (cur, k, v) :: entriesFrom cur rest

/-- The (trimmed key, trimmed value) pairs of the key=value lines, in order. -/
def kvPairs (s : List Nat) : List (List Nat × List Nat) :=
  (items s).filterMap fun i =>
    match i with
    | .entry k v => some (k, v)
    | .sec _ => none

/-- First value for a key, scanning entries in order and ignoring sections
(the search order of `get`, lines 392-395). -/
def lookupKey : List Item → List Nat → Option (List Nat)
  | [], _ => none
  | .sec _ :: rest, k => lookupKey rest k
  | .entry k2 v :: rest, k => if k2 = k then some v else lookupKey rest k

/-- Facts about items the validator guarantees: no NUL inside any span,
values non-empty, and keys (when non-empty) not starting with `[`. -/
def itemsWF (its : List Item) : Bool :=
  its.all fun i =>
    match i with
    | .sec nm => nm.all (fun c => c != 0)
    | .entry k v =>
      k.all (fun c => c != 0) && v.all (fun c => c != 0) && !v.isEmpty &&
        (k.isEmpty || hd0 k != 91)

/-- Every entry has a non-empty trimmed key (NOT guaranteed by the
validator: the line `=v` is accepted with an empty key). -/
def noEmptyKey (its : List Item) : Bool :=
  its.all fun i =>
    match i with
    | .sec _ => true
    | .entry k _ => !k.isEmpty

/-- The last construct, if any, is an entry (NOT guaranteed by the
validator: a trailing `[section]` with no following entry is accepted). -/
def endsEntry (its : List Item) : Bool :=
  match its.getLast? with
  | none => true
  | some (.entry _ _) => true
  | some (.sec _) => false

/-- Splits off the maximal leading run of section markers before the first
entry, returning their names, the first entry, and the remaining items. -/
def firstEntrySplit : List Item → Option (List (List Nat) × List Nat × List Nat × List Item)
  | [] => none
  | .sec nm :: rest =>
    (firstEntrySplit rest).map fun x => (nm :: x.1, x.2)
  | .entry k v :: rest => some ([], k, v, rest)

/-! ## Entry cursor (source lines 245-311) -/

/-- Iterator state: `pos` is the offset of `m_pos` in `kvp_buffer`;
`sec`, `first`, `second` are the offsets held by `m_current`
(`none` models a null pointer). -/
structure Iter where
  pos : Nat
  sec : Option Nat
  first : Option Nat
  second : Option Nat
deriving DecidableEq

/-- Reading the buffer at an offset; offsets at or past the end read the
zero-initialised tail of the array. -/
def rd (l : List Nat) (i : Nat) : Nat := l.getD i 0

/-- The NUL-terminated span starting at an offset. -/
def spanAt (l : List Nat) (i : Nat) : List Nat :=
  (l.drop i).takeWhile (fun c => c != 0)

/-- Offset just past the terminating NUL of the span at `i`:
`while (*m_pos++ != '\0');` (lines 257, 260, 262, 277). -/
def skipSpan (l : List Nat) (i : Nat) : Nat :=
  i + (spanAt l i).length + 1

/-- The section loop `while (*m_pos == '[') { m_current.section = m_pos + 1;
while (*m_pos++ != '\0'); }` of lines 255-258 and 275-278.  The loop in the
source terminates because positions strictly advance and reading past the
spans reaches the final NUL; the explicit fuel (always passed as
`buf.length + 1`, more than the loop can ever iterate) makes the model
structural. -/
def skipSecs (buf : List Nat) : Nat → Nat → Option Nat → Option Nat × Nat
  | 0, p, sc => (sc, p)
  | fuel + 1, p, sc =>
    if rd buf p == 91 then skipSecs buf fuel (skipSpan buf p) (some (p + 1))
    else (sc, p)

/-- Source `get_next` (lines 249-265). -/
def get_next (buf : List Nat) (it : Iter) : Iter :=
  if rd buf it.pos == 0 then { it with first := none }
  else
    let (sc, p) := skipSecs buf (buf.length + 1) it.pos it.sec
    let p2 := skipSpan buf p
    let p3 := skipSpan buf p2
    { pos := p3, sec := sc, first := some p, second := some p2 }

/-- The iterator constructor at a buffer position (lines 272-280). -/
def mkIter (buf : List Nat) (pos : Nat) : Iter :=
  let (sc, p) := skipSecs buf (buf.length + 1) pos none
  get_next buf { pos := p, sec := sc, first := none, second := none }

/-- Source `operator==` (lines 308-310): positions equal and `first` pointers
equal (both null counts as equal). -/
def iterEq (a b : Iter) : Bool :=
  a.pos == b.pos && a.first == b.first

/-- Source `stringmatch` (lines 68-72) on NUL-terminated strings, with the string
contents as lists (reading past the end yields the terminator). -/
def stringmatch : List Nat → List Nat → Bool
  | [], [] => true
  | [], b :: _ => b == 0
  | a :: _, [] => a == 0
  | a :: as, b :: bs =>
    if a == b then
      if a == 0 then true else stringmatch as bs
    else false

/-- The size the buffer was allocated with (`sizeof(kvp_buffer) - 1`
recovers `verify_and_size()`); only meaningful on accepted inputs, where
`verify_and_size` succeeds. -/
def verifySize (s : List Nat) : Nat :=
  match verify_and_size s with
  | .ok n => n
  | .error _ => 0

/-- Source `begin()` (lines 332-334). -/
def beginIt (s : List Nat) : Iter :=
  mkIter (kvp_buffer s) 0

/-- Source `end()` (lines 335-337): iterator at `kvp_buffer + sizeof(kvp_buffer) - 1`. -/
def endIt (s : List Nat) : Iter :=
  mkIter (kvp_buffer s) (verifySize s)

/-- The ranged-for from an iterator to `e`, yielding each entry decoded as
(section span or null, key span, value span).  Returns `none` when the loop
dereferences a null `first` (undefined behaviour in the source, and the
iterator can then never reach `end()`) or when the fuel — always passed
larger than any terminating run — is exhausted. -/
def iterRun (buf : List Nat) (e : Iter) : Nat → Iter → Option (List (Option (List Nat) × List Nat × List Nat))
  | 0, _ => none
  | fuel + 1, it =>
    if iterEq it e then some []
    else
      match it.first, it.second with
      | some f, some sn =>
        (iterRun buf e fuel (get_next buf it)).map
          (fun rest => (it.sec.map (spanAt buf), spanAt buf f, spanAt buf sn) :: rest)
      | _, _ => none

/-- Whole-store iteration `begin()` to `end()`. -/
def iterEntries (s : List Nat) : Option (List (Option (List Nat) × List Nat × List Nat)) :=
  iterRun (kvp_buffer s) (endIt s) ((kvp_buffer s).length + 2) (beginIt s)

/-- The loop of `get` (lines 392-395): scan from an iterator, return the
value span of the first entry whose key span matches, or `""` when the loop
reaches `e`. -/
def getLoop (buf : List Nat) (e : Iter) (key : List Nat) : Nat → Iter → Option (List Nat)
  | 0, _ => none
  | fuel + 1, it =>
    if iterEq it e then some []
    else
      match it.first, it.second with
      | some f, some sn =>
        if stringmatch (spanAt buf f) key then some (spanAt buf sn)
        else getLoop buf e key fuel (get_next buf it)
      | _, _ => none

/-- Source `get(key)` (lines 391-397). -/
def get (s key : List Nat) : Option (List Nat) :=
  getLoop (kvp_buffer s) (endIt s) key ((kvp_buffer s).length + 2) (beginIt s)

/-- The loop of `tryget` (lines 432-435) — the run-time twin of `get`,
with an identical body. -/
def trygetLoop (buf : List Nat) (e : Iter) (key : List Nat) : Nat → Iter → Option (List Nat)
  | 0, _ => none
  | fuel + 1, it =>
    if iterEq it e then some []
    else
      match it.first, it.second with
      | some f, some sn =>
        if stringmatch (spanAt buf f) key then some (spanAt buf sn)
        else trygetLoop buf e key fuel (get_next buf it)
      | _, _ => none

/-- Source `tryget(key)` (lines 431-437). -/
def tryget (s key : List Nat) : Option (List Nat) :=
  trygetLoop (kvp_buffer s) (endIt s) key ((kvp_buffer s).length + 2) (beginIt s)

/-- The condition of the `begin(section)` do-while (line 351):
`it->section != nullptr && stringmatch(it->section, section)`. -/
def secMatches (buf name : List Nat) : Option Nat → Bool
  | some sp => stringmatch (spanAt buf sp) name
  | none => false

/-- The do-while of `begin(section)` (lines 348-355): check the current
entry, else advance; stop on reaching `end()`. -/
def beginSecLoop (buf : List Nat) (e : Iter) (name : List Nat) : Nat → Iter → Option Iter
  | 0, _ => none
  | fuel + 1, it =>
    if secMatches buf name it.sec then some it
    else
      let it2 := get_next buf it
      if iterEq it2 e then some it2
      else beginSecLoop buf e name fuel it2

/-- Source `begin(section)` (lines 348-355). -/
def beginSec (s name : List Nat) : Option Iter :=
  beginSecLoop (kvp_buffer s) (endIt s) name ((kvp_buffer s).length + 2) (beginIt s)

/-- The while of `end(section)` (lines 360-364): advance while the section
still matches.  `stringmatch(it->section, section)` with a null section
would be undefined behaviour: modelled as `none`. -/
def endSecLoop (buf : List Nat) (e : Iter) (name : List Nat) : Nat → Iter → Option Iter
  | 0, _ => none
  | fuel + 1, it =>
    let it2 := get_next buf it
    if iterEq it2 e then some it2
    else
      match it2.sec with
      | none => none
      | some sp =>
        if stringmatch (spanAt buf sp) name then endSecLoop buf e name fuel it2
        else some it2

/-- Source `end(section)` (lines 360-364): runs `begin(section)` again, then
advances past the matching run. -/
def endSec (s name : List Nat) : Option Iter :=
  (beginSec s name).bind
    (endSecLoop (kvp_buffer s) (endIt s) name ((kvp_buffer s).length + 2))

/-- Ranged-for over `[b, e)` (the `section_view` of lines 366-378),
yielding decoded entries. -/
def rangeRun (buf : List Nat) (e : Iter) : Nat → Iter → Option (List (Option (List Nat) × List Nat × List Nat))
  | 0, _ => none
  | fuel + 1, it =>
    if iterEq it e then some []
    else
      match it.first, it.second with
      | some f, some sn =>
        (rangeRun buf e fuel (get_next buf it)).map
          (fun rest => (it.sec.map (spanAt buf), spanAt buf f, spanAt buf sn) :: rest)
      | _, _ => none

/-- The entries of `section(name)` (lines 383-385): the range
`[begin(name), end(name))`. -/
def secRange (s name : List Nat) : Option (List (Option (List Nat) × List Nat × List Nat)) :=
  (beginSec s name).bind fun b =>
    (endSec s name).bind fun e =>
      rangeRun (kvp_buffer s) e ((kvp_buffer s).length + 2) b

/-- The loop of `get(sec, key)` (lines 411-414) over the section view. -/
def getSecLoop (buf : List Nat) (e : Iter) (key : List Nat) : Nat → Iter → Option (List Nat)
  | 0, _ => none
  | fuel + 1, it =>
    if iterEq it e then some []
    else
      match it.first, it.second with
      | some f, some sn =>
        if stringmatch (spanAt buf f) key then some (spanAt buf sn)
        else getSecLoop buf e key fuel (get_next buf it)
      | _, _ => none

/-- Source `get(sec, key)` (lines 410-416). -/
def getInSec (s name key : List Nat) : Option (List Nat) :=
  (beginSec s name).bind fun b =>
    (endSec s name).bind fun e =>
      getSecLoop (kvp_buffer s) e key ((kvp_buffer s).length + 2) b

/-- The loop of `tryget(sec, key)` (lines 443-446) — identical body. -/
def trygetSecLoop (buf : List Nat) (e : Iter) (key : List Nat) : Nat → Iter → Option (List Nat)
  | 0, _ => none
  | fuel + 1, it =>
    if iterEq it e then some []
    else
      match it.first, it.second with
      | some f, some sn =>
        if stringmatch (spanAt buf f) key then some (spanAt buf sn)
        else trygetSecLoop buf e key fuel (get_next buf it)
      | _, _ => none

/-- Source `tryget(sec, key)` (lines 442-448). -/
def trygetInSec (s name key : List Nat) : Option (List Nat) :=
  (beginSec s name).bind fun b =>
    (endSec s name).bind fun e =>
      trygetSecLoop (kvp_buffer s) e key ((kvp_buffer s).length + 2) b

/-- Source `contains(key)` (lines 454-456): `*get(key) != '\0'`. -/
def containsKey (s key : List Nat) : Option Bool :=
  (get s key).map fun v => hd0 v != 0

/-- Source `trycontains(key)` (lines 460-462). -/
def trycontainsKey (s key : List Nat) : Option Bool :=
  (tryget s key).map fun v => hd0 v != 0

/-- Source `contains(sec, key)` (lines 457-459). -/
def containsSecKey (s name key : List Nat) : Option Bool :=
  (getInSec s name key).map fun v => hd0 v != 0

/-- Source `trycontains(sec, key)` (lines 463-465). -/
def trycontainsSecKey (s name key : List Nat) : Option Bool :=
  (trygetInSec s name key).map fun v => hd0 v != 0

/-- Convenience encoder from Lean string literals to character-code lists. -/
def str (s : String) : List Nat :=
  s.toList.map Char.toNat

/-! ## Per-line lemmas -/

theorem isgraph_ne_zero {c : Nat} (h : isgraph c = true) : c ≠ 0 := by
  intro h0
  rw [h0] at h
  simp [isgraph] at h

theorem not_iseol_ne_zero {c : Nat} (h : iseol c = false) : c ≠ 0 := by
  intro h0
  rw [h0] at h
  simp [iseol] at h

theorem valueCount_eq (s : List Nat) : ∀ b, valueCount s b = (valueScan s b).length := by
  induction s with
  | nil => intro b; rfl
  | cons c rest ih =>
    intro b
    by_cases h : iseol c = true
    · simp [valueCount, valueScan, h]
    · simp only [Bool.not_eq_true] at h
      by_cases hv : (b || isgraph c) = true
      · simp [valueCount, valueScan, h, hv, ih, Nat.add_comm]
      · simp [valueCount, valueScan, h, hv, ih]

theorem valueScan_no_eol (s : List Nat) : ∀ b c, c ∈ valueScan s b → iseol c = false := by
  induction s with
  | nil => intro b c hc; simp [valueScan] at hc
  | cons d rest ih =>
    intro b c hc
    by_cases h : iseol d = true
    · simp [valueScan, h] at hc
    · simp only [Bool.not_eq_true] at h
      by_cases hv : (b || isgraph d) = true
      · simp only [valueScan, h, hv] at hc
        simp only [Bool.false_eq_true, if_false, if_true, List.mem_cons] at hc
        rcases hc with hc | hc
        · rw [hc]; exact h
        · exact ih _ _ hc
      · simp only [valueScan, h, hv] at hc
        simp only [Bool.false_eq_true, if_false] at hc
        exact ih _ _ hc

theorem keyScan_pack (s : List Nat) :
    ∀ ke n r, keyScan s ke = .ok (n, r) →
      (keyPack s ke).2 = r ∧ (keyPack s ke).1.length = n ∧
        ∀ c ∈ (keyPack s ke).1, isgraph c = true := by
  induction s with
  | nil =>
    intro ke n r h
    simp only [keyScan, Except.ok.injEq, Prod.mk.injEq] at h
    obtain ⟨h1, h2⟩ := h
    subst h1; subst h2
    exact ⟨rfl, rfl, by intro c hc; simp [keyPack] at hc⟩
  | cons c rest ih =>
    intro ke n r h
    by_cases he : iseol c = true
    · simp only [keyScan, he, if_true, Except.ok.injEq, Prod.mk.injEq] at h
      obtain ⟨h1, h2⟩ := h
      subst h1; subst h2
      refine ⟨?_, ?_, ?_⟩ <;> simp [keyPack, he]
    · simp only [Bool.not_eq_true] at he
      by_cases heq : (c == 61) = true
      · simp only [keyScan, he, Bool.false_eq_true, if_false, heq, if_true,
          Except.ok.injEq, Prod.mk.injEq] at h
        obtain ⟨h1, h2⟩ := h
        subst h1; subst h2
        refine ⟨?_, ?_, ?_⟩ <;> simp [keyPack, he, heq]
      · by_cases hke : ke = true
        · subst hke
          by_cases hg : isgraph c = true
          · simp only [keyScan, he, Bool.false_eq_true, if_false, heq, hg, if_true,
              Bool.not_true] at h
            exact Except.noConfusion h
          · simp only [Bool.not_eq_true] at hg
            simp only [keyScan, he, Bool.false_eq_true, if_false, heq, hg, Bool.not_true] at h
            have := ih true n r h
            simpa [keyPack, he, heq, hg] using this
        · simp only [Bool.not_eq_true] at hke
          subst hke
          by_cases hg : isgraph c = true
          · simp only [keyScan, he, Bool.false_eq_true, if_false, heq, hg, Bool.not_false,
              if_true, Bool.not_true] at h
            cases hks : keyScan rest false with
            | error e => rw [hks] at h; simp at h
            | ok nr =>
              rw [hks] at h
              obtain ⟨n2, r2⟩ := nr
              simp only [Except.ok.injEq, Prod.mk.injEq] at h
              obtain ⟨h1, h2⟩ := h
              have := ih false n2 r2 hks
              obtain ⟨i1, i2, i3⟩ := this
              cases hkp : keyPack rest false with
              | mk w2 rr2 =>
                rw [hkp] at i1 i2 i3
                have hK : keyPack (c :: rest) false = (c :: w2, rr2) := by
                  simp [keyPack, he, heq, hg, hkp]
                rw [hK]
                refine ⟨by simpa [← h2] using i1, by simpa [← h1] using i2, ?_⟩
                intro d hd2
                simp only [List.mem_cons] at hd2
                rcases hd2 with hd2 | hd2
                · rw [hd2]; exact hg
                · exact i3 d hd2
          · simp only [Bool.not_eq_true] at hg
            simp only [keyScan, he, Bool.false_eq_true, if_false, heq, hg, Bool.not_false,
              if_true, Bool.not_true] at h
            have := ih true n r h
            simpa [keyPack, he, heq, hg] using this

theorem keyPack_cons_graph {c : Nat} (rest : List Nat) (he : iseol c = false)
    (heq : (c == 61) = false) (hg : isgraph c = true) :
    (keyPack (c :: rest) false).1 = c :: (keyPack rest false).1 := by
  cases hkp : keyPack rest false with
  | mk w r => simp [keyPack, he, heq, hg, hkp]

theorem secName_eq (t : List Nat) (h : iseol (secStopV t) = false) :
    t.takeWhile (fun d => d != 93) = secNameV t := by
  induction t with
  | nil => simp [secStopV, hd0, iseol] at h
  | cons c rest ih =>
    by_cases h93 : (c == 93) = true
    · have hc : c = 93 := by simpa using h93
      subst hc
      simp [secNameV, List.takeWhile, iseol]
    · by_cases he : iseol c = true
      · exfalso
        have : secStopV (c :: rest) = c := by
          simp [secStopV, List.dropWhile, he, hd0]
        rw [this] at h
        rw [he] at h
        exact Bool.noConfusion h
      · simp only [Bool.not_eq_true] at he
        have h93' : (c == 93) = false := by simpa using h93
        have hstep : secStopV (c :: rest) = secStopV rest := by
          simp [secStopV, List.dropWhile, he, h93', bne]
        rw [hstep] at h
        have := ih h
        simp only [secNameV] at this ⊢
        rw [List.takeWhile_cons, List.takeWhile_cons]
        have hc1 : (c != 93) = true := by simp [bne, h93']
        have hc2 : (!iseol c && c != 93) = true := by simp [he, bne, h93']
        rw [hc1]
        simp [he, this]

theorem secNameV_no_eol (t : List Nat) : ∀ c ∈ secNameV t, iseol c = false := by
  intro c hc
  have := List.mem_takeWhile_imp hc
  simp only [Bool.and_eq_true, Bool.not_eq_true'] at this
  exact this.1

theorem skipws_head (s : List Nat) :
    (iseol (hd0 (skipws s)) || isgraph (hd0 (skipws s))) = true := by
  induction s with
  | nil => decide
  | cons c rest ih =>
    by_cases h : (!iseol c && !isgraph c) = true
    · have : skipws (c :: rest) = skipws rest := by
        simp [skipws, List.dropWhile, h]
      rw [this]; exact ih
    · have hs : skipws (c :: rest) = c :: rest := by
        simp only [skipws, List.dropWhile]
        rw [Bool.not_eq_true] at h
        rw [h]
      rw [hs]
      simp only [hd0]
      by_cases he : iseol c = true
      · simp [he]
      · simp only [Bool.not_eq_true] at he
        have hg : isgraph c = true := by
          by_contra hng
          simp only [Bool.not_eq_true] at hng
          simp [he, hng] at h
        simp [hg]

theorem skipws_ne_nil_of_not_eol (s : List Nat)
    (h : (iseol (hd0 (skipws s)) || iscomment (hd0 (skipws s))) = false) :
    skipws s ≠ [] := by
  intro hnil
  rw [hnil] at h
  simp [hd0, iseol] at h

/-- Case analysis for one accepted line: what the validator counted, what the
packer writes, and the construct recognised, all agree. -/
theorem verifyLine_cases (s : List Nat) (n : Nat) (h : verifyLine s = .ok n) :
    (itemLine s = none ∧ fillLine s = [] ∧ n = 0) ∨
    (∃ nm, itemLine s = some (.sec nm) ∧ fillLine s = 91 :: nm ++ [0] ∧
      n = nm.length + 2 ∧ ∀ c ∈ nm, c ≠ 0) ∨
    (∃ k v, itemLine s = some (.entry k v) ∧ fillLine s = k ++ [0] ++ v ++ [0] ∧
      n = k.length + v.length + 2 ∧ v ≠ [] ∧ (∀ c ∈ k, c ≠ 0) ∧ (∀ c ∈ v, c ≠ 0) ∧
      (k = [] ∨ hd0 k ≠ 91)) := by
  by_cases hbc : (iseol (hd0 (skipws s)) || iscomment (hd0 (skipws s))) = true
  · left
    refine ⟨by simp [itemLine, hbc], by simp [fillLine, hbc], ?_⟩
    simp only [verifyLine, hbc, if_true] at h
    injection h with h2
    omega
  · have hbc' : (iseol (hd0 (skipws s)) || iscomment (hd0 (skipws s))) = false := by
      simpa using hbc
    have hne : skipws s ≠ [] := skipws_ne_nil_of_not_eol s hbc'
    by_cases hsec : (hd0 (skipws s) == 91) = true
    · -- section line
      obtain ⟨t, ht⟩ : ∃ t, skipws s = 91 :: t := by
        cases hsk : skipws s with
        | nil => exact absurd hsk hne
        | cons a t =>
          have : a = 91 := by
            have : hd0 (skipws s) = a := by rw [hsk]; rfl
            rw [this] at hsec
            simpa using hsec
          exact ⟨t, by rw [this]⟩
      simp only [verifyLine, hbc', Bool.false_eq_true, if_false, hsec, if_true] at h
      by_cases hstop : iseol (secStopV (skipws s).tail) = true
      · rw [hstop] at h
        simp at h
      · simp only [Bool.not_eq_true] at hstop
        rw [hstop] at h
        simp only [Bool.false_eq_true, if_false, Except.ok.injEq] at h
        right; left
        refine ⟨secNameV (skipws s).tail, by simp [itemLine, hbc', hsec], ?_, h.symm, ?_⟩
        · have htl : (skipws s).tail = t := by rw [ht]; rfl
          rw [htl] at hstop ⊢
          simp only [fillLine, hbc', Bool.false_eq_true, if_false, hsec, if_true]
          rw [ht]
          simp only [secPack]
          rw [secName_eq t hstop]
        · intro c hc
          exact not_iseol_ne_zero (secNameV_no_eol _ c hc)
    · -- key=value line
      simp only [verifyLine, hbc', Bool.false_eq_true, if_false, hsec, if_true] at h
      cases hks : keyScan (skipws s) false with
      | error e => rw [hks] at h; exact Except.noConfusion h
      | ok nr =>
        obtain ⟨k, r⟩ := nr
        rw [hks] at h
        dsimp only at h
        by_cases h61 : (hd0 r != 61) = true
        · rw [h61] at h; simp at h
        · have h61' : (hd0 r == 61) = true := by simpa [bne] using h61
          simp only [Bool.not_eq_true] at h61
          rw [h61] at h
          simp only [Bool.false_eq_true, if_false] at h
          by_cases hv0 : (valueCount r.tail false == 0) = true
          · rw [hv0] at h; simp at h
          · simp only [Bool.not_eq_true] at hv0
            rw [hv0] at h
            simp only [Bool.false_eq_true, if_false, Except.ok.injEq] at h
            cases hkp : keyPack (skipws s) false with
            | mk w r2 =>
              have hsp := keyScan_pack (skipws s) false k r hks
              rw [hkp] at hsp
              obtain ⟨hr2, hwlen, hwgraph⟩ := hsp
              simp only at hr2 hwlen hwgraph
              subst hr2
              right; right
              refine ⟨w, valueScan r2.tail false,
                by simp [itemLine, hbc', hsec, hkp], by simp [fillLine, hbc', hsec, hkp], ?_, ?_, ?_, ?_, ?_⟩
              · rw [← h, hwlen, valueCount_eq]
              · intro hnil
                have : valueCount r2.tail false = 0 := by
                  rw [valueCount_eq, hnil]
                  rfl
                simp [this] at hv0
              · intro c hc
                exact isgraph_ne_zero (hwgraph c hc)
              · intro c hc
                exact not_iseol_ne_zero (valueScan_no_eol r2.tail false c hc)
              · by_cases hw : w = []
                · exact Or.inl hw
                · right
                  obtain ⟨c, t, ht⟩ : ∃ c t, skipws s = c :: t := by
                    cases hsk : skipws s with
                    | nil => exact absurd hsk hne
                    | cons a t => exact ⟨a, t, rfl⟩
                  have hceol : iseol c = false := by
                    have : hd0 (skipws s) = c := by rw [ht]; rfl
                    rw [this] at hbc'
                    rcases Bool.or_eq_false_iff.mp hbc' with ⟨h1, _⟩
                    exact h1
                  have hcg : isgraph c = true := by
                    have hh := skipws_head s
                    have : hd0 (skipws s) = c := by rw [ht]; rfl
                    rw [this] at hh
                    rw [hceol] at hh
                    simpa using hh
                  by_cases hceq : (c == 61) = true
                  · exfalso
                    apply hw
                    have : keyPack (skipws s) false = ([], skipws s) := by
                      rw [ht]
                      simp [keyPack, hceol, hceq, ht]
                    rw [hkp] at this
                    exact congrArg Prod.fst this
                  · have hc61 : (c == 61) = false := by simpa using hceq
                    have hkc := keyPack_cons_graph t hceol hc61 hcg
                    rw [← ht, hkp] at hkc
                    simp only at hkc
                    rw [hkc]
                    intro h91
                    have hc91 : c = 91 := by simpa [hd0] using h91
                    apply hsec
                    have hhd : hd0 (skipws s) = c := by rw [ht]; rfl
                    rw [hhd, hc91]
                    decide

example : verify_and_size [] = .ok 0 := by decide
example : kvp_buffer (str "k=v") = [107, 0, 118, 0, 0] := by decide
example : verify_and_size (str "[a") = .error "Bad section tag!" := by decide
example : kvpcount (str "k=v") = 1 := by decide
example : get (str "k=v") (str "k") = some (str "v") := by decide
example : get (str "[n]\nhost = ex.com\nport = 80") (str "port") = some (str "80") := by decide
example : iterEntries (str "[n]\na=1\nb=2") =
    some [(some (str "n"), str "a", str "1"), (some (str "n"), str "b", str "2")] := by decide
example : secRange (str "[n]\na=1\n[m]\nb=2") (str "n") = some [(some (str "n"), str "a", str "1")] := by decide
example : getInSec (str "[n]\na=1\n[m]\nb=2") (str "m") (str "b") = some (str "2") := by decide
example : iterEntries (str "k=v\n[s]") = none := by decide
example : get (str "a=1\na=2") (str "a") = some (str "1") := by decide

theorem flattenItems_cons (i : Item) (l : List Item) :
    flattenItems (i :: l) = flattenItem i ++ flattenItems l := rfl

/-- Folding the per-line lemma over the whole input: on acceptance, the
packer writes the flattened items, their total length is the computed size,
and the well-formedness facts hold. -/
theorem verifyLinesOk : ∀ (ls : List (List Nat)) (n : Nat), verifyLines ls = .ok n →
    catLists (ls.map fillLine) = flattenItems (ls.filterMap itemLine) ∧
    (flattenItems (ls.filterMap itemLine)).length = n ∧
    itemsWF (ls.filterMap itemLine) = true := by
  intro ls
  induction ls with
  | nil =>
    intro n h
    simp only [verifyLines, Except.ok.injEq] at h
    subst h
    exact ⟨rfl, rfl, rfl⟩
  | cons t ts ih =>
    intro n h
    simp only [verifyLines] at h
    cases hv : verifyLine t with
    | error e => rw [hv] at h; exact Except.noConfusion h
    | ok m =>
      rw [hv] at h
      cases hvs : verifyLines ts with
      | error e => rw [hvs] at h; exact Except.noConfusion h
      | ok m2 =>
        rw [hvs] at h
        dsimp only at h
        injection h with h2
        obtain ⟨ih1, ih2, ih3⟩ := ih m2 hvs
        rcases verifyLine_cases t m hv with ⟨hi, hf, hm⟩ | ⟨nm, hi, hf, hm, hnm⟩ |
          ⟨k, v, hi, hf, hm, hv1, hk0, hv0, hk91⟩
        · subst hm
          refine ⟨?_, ?_, ?_⟩
          · simp [List.map_cons, List.filterMap_cons, hi, hf, catLists, ih1]
          · simp only [List.filterMap_cons, hi]
            omega
          · simp only [List.filterMap_cons, hi]
            exact ih3
        · have hall : nm.all (fun c => c != 0) = true :=
            List.all_eq_true.mpr (fun c hc => by simpa using hnm c hc)
          refine ⟨?_, ?_, ?_⟩
          · simp [List.map_cons, List.filterMap_cons, hi, hf, catLists, ih1,
              flattenItems_cons, flattenItem]
          · simp only [List.filterMap_cons, hi, flattenItems_cons, flattenItem,
              List.length_append, List.length_cons, List.length_singleton, List.length_nil, ih2]
            omega
          · simp only [itemsWF, List.filterMap_cons, hi, List.all_cons, Bool.and_eq_true]
            refine ⟨hall, ?_⟩
            simpa [itemsWF] using ih3
        · have hkall : k.all (fun c => c != 0) = true :=
            List.all_eq_true.mpr (fun c hc => by simpa using hk0 c hc)
          have hvall : v.all (fun c => c != 0) = true :=
            List.all_eq_true.mpr (fun c hc => by simpa using hv0 c hc)
          refine ⟨?_, ?_, ?_⟩
          · simp [List.map_cons, List.filterMap_cons, hi, hf, catLists, ih1,
              flattenItems_cons, flattenItem]
          · simp only [List.filterMap_cons, hi, flattenItems_cons, flattenItem,
              List.length_append, List.length_cons, List.length_singleton, List.length_nil, ih2]
            omega
          · simp only [itemsWF, List.filterMap_cons, hi, List.all_cons, Bool.and_eq_true]
            refine ⟨⟨⟨⟨hkall, hvall⟩, ?_⟩, ?_⟩, ?_⟩
            · simp [List.isEmpty_iff, hv1]
            · rcases hk91 with hk | hk
              · simp [hk]
              · cases hke : k.isEmpty
                · simp only [Bool.false_or]
                  simpa using hk
                · simp
            · simpa [itemsWF] using ih3

/-- On acceptance, the packed writes are the flattened items, their length
is the computed size, and the items are well-formed. -/
theorem pack_structure (s : List Nat) (n : Nat) (h : verify_and_size s = .ok n) :
    fillWrites s = flattenItems (items s) ∧ (flattenItems (items s)).length = n ∧
    itemsWF (items s) = true :=
  verifyLinesOk (processedLines s) n h

/-- Number of entry items. -/
def entryCount : List Item → Nat
  | [] => 0
  | .sec _ :: rest => entryCount rest
  | .entry _ _ :: rest => entryCount rest + 1

theorem entriesFrom_length (its : List Item) :
    ∀ cur, (entriesFrom cur its).length = entryCount its := by
  induction its with
  | nil => intro cur; rfl
  | cons i rest ih =>
    intro cur
    cases i with
    | sec nm => simp [entriesFrom, entryCount, ih]
    | entry k v => simp [entriesFrom, entryCount, ih]

/-- Lemma: `kvpLine` counts a line exactly when `itemLine` recognises an entry
(blank, comment and bracket lines are skipped by both). -/
theorem kvpLine_eq_item (t : List Nat) :
    kvpLine t = (match itemLine t with
      | some (.entry _ _) => 1
      | _ => 0) := by
  by_cases hbc : (iseol (hd0 (skipws t)) || iscomment (hd0 (skipws t))) = true
  · simp [kvpLine, itemLine, hbc]
  · have hbc' : (iseol (hd0 (skipws t)) || iscomment (hd0 (skipws t))) = false := by
      simpa using hbc
    have h1 : iseol (hd0 (skipws t)) = false := (Bool.or_eq_false_iff.mp hbc').1
    have h2 : iscomment (hd0 (skipws t)) = false := (Bool.or_eq_false_iff.mp hbc').2
    by_cases hsec : (hd0 (skipws t) == 91) = true
    · simp [kvpLine, itemLine, h1, h2, hsec]
    · have hsec' : (hd0 (skipws t) == 91) = false := by simpa using hsec
      cases hkp : keyPack (skipws t) false with
      | mk w r =>
        simp [kvpLine, itemLine, h1, h2, hsec', hkp]

theorem kvpcount_entryCount : ∀ (ls : List (List Nat)),
    ((ls.map kvpLine).sum) = entryCount (ls.filterMap itemLine) := by
  intro ls
  induction ls with
  | nil => rfl
  | cons t ts ih =>
    rw [List.map_cons, List.sum_cons, List.filterMap_cons, kvpLine_eq_item]
    cases hit : itemLine t with
    | none => simpa using ih
    | some i =>
      cases i with
      | sec nm => simpa [entryCount] using ih
      | entry k v =>
        simp only [entryCount, ih]
        omega

/-! ## Buffer reading primitives -/

theorem rd_eq (l : List Nat) : ∀ i, rd l i = hd0 (l.drop i) := by
  induction l with
  | nil => intro i; cases i <;> rfl
  | cons c rest ih =>
    intro i
    cases i with
    | zero => rfl
    | succ j => simpa [rd, List.getD, List.drop] using ih j

theorem takeWhile_prefix_zero (x r : List Nat) (hx : ∀ c ∈ x, c ≠ 0) :
    ((x ++ 0 :: r).takeWhile (fun c => c != 0)) = x := by
  induction x with
  | nil => simp [List.takeWhile]
  | cons c t ih =>
    have hc : c ≠ 0 := hx c (by simp)
    have hrec := ih (fun d hd2 => hx d (by simp [hd2]))
    simp only [List.cons_append, List.takeWhile_cons]
    have : (c != 0) = true := by simpa using hc
    rw [this]
    simp [hrec]

theorem spanAt_of_drop (buf : List Nat) (p : Nat) (x r : List Nat)
    (h : buf.drop p = x ++ 0 :: r) (hx : ∀ c ∈ x, c ≠ 0) :
    spanAt buf p = x := by
  rw [spanAt, h]
  exact takeWhile_prefix_zero x r hx

theorem drop_add (buf : List Nat) (p m : Nat) : buf.drop (p + m) = (buf.drop p).drop m :=
  (List.drop_drop m p buf).symm

theorem skipSpan_of_drop (buf : List Nat) (p : Nat) (x r : List Nat)
    (h : buf.drop p = x ++ 0 :: r) (hx : ∀ c ∈ x, c ≠ 0) :
    skipSpan buf p = p + x.length + 1 ∧ buf.drop (p + x.length + 1) = r := by
  have hs := spanAt_of_drop buf p x r h hx
  constructor
  · rw [skipSpan, hs]
  · have : p + x.length + 1 = p + (x.length + 1) := by omega
    rw [this, drop_add, h]
    have : (x ++ 0 :: r) = (x ++ [0]) ++ r := by simp
    rw [this]
    have hlen : x.length + 1 = (x ++ [0]).length := by simp
    rw [hlen]
    exact List.drop_left _ _

theorem rd_of_drop_cons (buf : List Nat) (p : Nat) (c : Nat) (r : List Nat)
    (h : buf.drop p = c :: r) : rd buf p = c := by
  rw [rd_eq, h]
  rfl

/-! ## Boundary invariant: the buffer from position `p` on holds the
flattened remaining items followed by the final NUL. -/

def Boundary (buf : List Nat) (p : Nat) (its : List Item) : Prop :=
  buf.drop p = flattenItems its ++ [0]

theorem boundary_nil (buf : List Nat) (p : Nat) (h : Boundary buf p []) :
    p + 1 = buf.length ∧ rd buf p = 0 := by
  have hd : buf.drop p = [0] := by simpa [Boundary, flattenItems, catLists] using h
  constructor
  · have h1 : (buf.drop p).length = 1 := by rw [hd]; rfl
    rw [List.length_drop] at h1
    have h2 : p < buf.length := by
      by_contra hc
      push_neg at hc
      have : buf.drop p = [] := List.drop_eq_nil_of_le hc
      rw [this] at hd
      exact List.noConfusion hd
    omega
  · exact rd_of_drop_cons buf p 0 [] hd

theorem boundary_length (buf : List Nat) (p : Nat) (its : List Item)
    (h : Boundary buf p its) : p + (flattenItems its).length + 1 = buf.length := by
  have hd : buf.drop p = flattenItems its ++ [0] := h
  have h1 : (buf.drop p).length = (flattenItems its).length + 1 := by
    rw [hd]; simp
  rw [List.length_drop] at h1
  have h2 : p < buf.length := by
    by_contra hc
    push_neg at hc
    have hnil : buf.drop p = [] := List.drop_eq_nil_of_le hc
    rw [hnil] at hd
    simp at hd
  omega

theorem flattenItem_len_pos (i : Item) : 1 ≤ (flattenItem i).length := by
  cases i <;>
    simp only [flattenItem, List.length_cons, List.length_append, List.length_singleton] <;>
    omega

theorem flattenItems_len_ge (its : List Item) : its.length ≤ (flattenItems its).length := by
  induction its with
  | nil => simp [flattenItems, catLists]
  | cons i l ih =>
    rw [flattenItems_cons]
    have := flattenItem_len_pos i
    simp only [List.length_append, List.length_cons]
    omega

/-! ## Well-formedness extraction -/

theorem itemsWF_sec_cons (nm : List Nat) (l : List Item)
    (h : itemsWF (.sec nm :: l) = true) :
    (∀ c ∈ nm, c ≠ 0) ∧ itemsWF l = true := by
  simp only [itemsWF, List.all_cons, Bool.and_eq_true] at h
  refine ⟨fun c hc => ?_, h.2⟩
  have := List.all_eq_true.mp h.1 c hc
  simpa using this

theorem itemsWF_entry_cons (k v : List Nat) (l : List Item)
    (h : itemsWF (.entry k v :: l) = true) :
    (∀ c ∈ k, c ≠ 0) ∧ (∀ c ∈ v, c ≠ 0) ∧ v ≠ [] ∧ (k ≠ [] → hd0 k ≠ 91) ∧
      itemsWF l = true := by
  simp only [itemsWF, List.all_cons, Bool.and_eq_true] at h
  obtain ⟨⟨⟨⟨hk, hv⟩, hve⟩, hk91⟩, hrest⟩ := h
  refine ⟨fun c hc => by simpa using List.all_eq_true.mp hk c hc,
    fun c hc => by simpa using List.all_eq_true.mp hv c hc,
    by simpa [List.isEmpty_iff] using hve, ?_, hrest⟩
  intro hne h91
  rcases Bool.or_eq_true_iff.mp hk91 with hh | hh
  · exact hne (by simpa [List.isEmpty_iff] using hh)
  · rw [h91] at hh
    simp at hh

theorem noEmptyKey_sec_cons (nm : List Nat) (l : List Item)
    (h : noEmptyKey (.sec nm :: l) = true) : noEmptyKey l = true := by
  simpa [noEmptyKey, List.all_cons] using h

theorem noEmptyKey_entry_cons (k v : List Nat) (l : List Item)
    (h : noEmptyKey (.entry k v :: l) = true) : k ≠ [] ∧ noEmptyKey l = true := by
  simp only [noEmptyKey, List.all_cons, Bool.and_eq_true] at h
  exact ⟨by simpa [List.isEmpty_iff] using h.1, h.2⟩

theorem endsEntry_cons_of_ne (i : Item) (l : List Item) (h : l ≠ []) :
    endsEntry (i :: l) = endsEntry l := by
  cases l with
  | nil => exact absurd rfl h
  | cons j t => simp [endsEntry, List.getLast?_cons_cons]

theorem endsEntry_sec_cons (nm : List Nat) (l : List Item)
    (h : endsEntry (.sec nm :: l) = true) : l ≠ [] ∧ endsEntry l = true := by
  cases hl : l with
  | nil =>
    rw [hl] at h
    simp [endsEntry, List.getLast?] at h
  | cons j t =>
    rw [hl] at h
    rw [endsEntry_cons_of_ne _ _ (by simp)] at h
    exact ⟨by simp, h⟩

theorem endsEntry_entry_cons (k v : List Nat) (l : List Item)
    (h : endsEntry (.entry k v :: l) = true) : endsEntry l = true := by
  cases hl : l with
  | nil => rfl
  | cons j t =>
    rw [hl] at h
    rw [endsEntry_cons_of_ne _ _ (by simp)] at h
    exact h

/-- A non-empty item list ending in an entry splits as leading section
markers, a first entry, and the remainder. -/
theorem split_of_endsEntry : ∀ (its : List Item), endsEntry its = true → its ≠ [] →
    ∃ (ms : List (List Nat)) (k v : List Nat) (rest : List Item),
      its = ms.map Item.sec ++ Item.entry k v :: rest := by
  intro its
  induction its with
  | nil => intro _ hne; exact absurd rfl hne
  | cons i l ih =>
    intro h _
    cases i with
    | entry k v => exact ⟨[], k, v, l, rfl⟩
    | sec nm =>
      obtain ⟨hlne, hl⟩ := endsEntry_sec_cons nm l h
      obtain ⟨ms, k, v, rest, hsplit⟩ := ih hl hlne
      exact ⟨nm :: ms, k, v, rest, by simp [hsplit]⟩

theorem split_of_lookup : ∀ (its : List Item) (key vv : List Nat),
    lookupKey its key = some vv →
    ∃ (ms : List (List Nat)) (k v : List Nat) (rest : List Item),
      its = ms.map Item.sec ++ Item.entry k v :: rest := by
  intro its
  induction its with
  | nil => intro key vv h; exact absurd h (by simp [lookupKey])
  | cons i l ih =>
    intro key vv h
    cases i with
    | entry k v => exact ⟨[], k, v, l, rfl⟩
    | sec nm =>
      obtain ⟨ms, k, v, rest, hsplit⟩ := ih key vv (by simpa [lookupKey] using h)
      exact ⟨nm :: ms, k, v, rest, by simp [hsplit]⟩

/-- Current section after consuming a run of markers: the last marker name,
or the carried-over section when the run is empty. -/
def msCur (ms : List (List Nat)) (cur : Option (List Nat)) : Option (List Nat) :=
  match ms.getLast? with
  | none => cur
  | some nm => some nm

theorem msCur_cons (nm : List Nat) (ms : List (List Nat)) (cur : Option (List Nat)) :
    msCur (nm :: ms) cur = msCur ms (some nm) := by
  cases ms with
  | nil => rfl
  | cons a t =>
    cases hg : (a :: t).getLast? with
    | none =>
      rw [List.getLast?_eq_none_iff] at hg
      exact List.noConfusion hg
    | some x => simp [msCur, List.getLast?_cons_cons, hg]

theorem entriesFrom_split : ∀ (ms : List (List Nat)) (cur : Option (List Nat))
    (k v : List Nat) (rest : List Item),
    entriesFrom cur (ms.map Item.sec ++ Item.entry k v :: rest) =
      (msCur ms cur, k, v) :: entriesFrom (msCur ms cur) rest := by
  intro ms
  induction ms with
  | nil => intro cur k v rest; rfl
  | cons nm t ih =>
    intro cur k v rest
    simp only [List.map_cons, List.cons_append, entriesFrom, List.append_eq]
    rw [ih (some nm) k v rest, msCur_cons]

/-! ## Stepping lemmas for the cursor -/

theorem skipSecs_stop (buf : List Nat) (p : Nat) (h : rd buf p ≠ 91) :
    ∀ fuel sc, skipSecs buf fuel p sc = (sc, p) := by
  intro fuel sc
  cases fuel with
  | zero => rfl
  | succ f =>
    have hb : (rd buf p == 91) = false := by simpa using h
    simp [skipSecs, hb]

theorem get_next_at_end (buf : List Nat) (it : Iter) (h : rd buf it.pos = 0) :
    get_next buf it = { it with first := none } := by
  simp [get_next, h]

theorem boundary_sec_step (buf : List Nat) (p : Nat) (nm : List Nat) (rest : List Item)
    (h : Boundary buf p (.sec nm :: rest)) (hnm : ∀ c ∈ nm, c ≠ 0) :
    rd buf p = 91 ∧ spanAt buf (p + 1) = nm ∧ skipSpan buf p = p + nm.length + 2 ∧
      Boundary buf (p + nm.length + 2) rest := by
  have hd : buf.drop p = (91 :: nm) ++ 0 :: (flattenItems rest ++ [0]) := by
    have hb : buf.drop p = flattenItems (.sec nm :: rest) ++ [0] := h
    rw [hb, flattenItems_cons]
    simp [flattenItem]
  have hx : ∀ c ∈ 91 :: nm, c ≠ 0 := by
    intro c hc
    rcases List.mem_cons.mp hc with hc | hc
    · rw [hc]; omega
    · exact hnm c hc
  obtain ⟨hskip, hdrop⟩ := skipSpan_of_drop buf p (91 :: nm) _ hd hx
  have hlen : p + (91 :: nm).length + 1 = p + nm.length + 2 := by
    simp only [List.length_cons]
    omega
  refine ⟨?_, ?_, ?_, ?_⟩
  · exact rd_of_drop_cons buf p 91 _ (by rw [hd]; rfl)
  · have hd1 : buf.drop (p + 1) = nm ++ 0 :: (flattenItems rest ++ [0]) := by
      rw [drop_add buf p 1, hd]
      rfl
    exact spanAt_of_drop buf (p + 1) nm _ hd1 hnm
  · rw [hskip, hlen]
  · rw [hlen] at hdrop
    exact hdrop

theorem boundary_entry_step (buf : List Nat) (p : Nat) (k v : List Nat) (rest : List Item)
    (h : Boundary buf p (.entry k v :: rest))
    (hk : ∀ c ∈ k, c ≠ 0) (hv : ∀ c ∈ v, c ≠ 0) :
    spanAt buf p = k ∧ skipSpan buf p = p + k.length + 1 ∧
    spanAt buf (p + k.length + 1) = v ∧
    skipSpan buf (p + k.length + 1) = p + k.length + 1 + v.length + 1 ∧
    Boundary buf (p + k.length + 1 + v.length + 1) rest := by
  have hd : buf.drop p = k ++ 0 :: (v ++ 0 :: (flattenItems rest ++ [0])) := by
    have hb : buf.drop p = flattenItems (.entry k v :: rest) ++ [0] := h
    rw [hb, flattenItems_cons]
    simp [flattenItem]
  obtain ⟨hs1, hdrop1⟩ := skipSpan_of_drop buf p k _ hd hk
  obtain ⟨hs2, hdrop2⟩ := skipSpan_of_drop buf (p + k.length + 1) v _ hdrop1 hv
  exact ⟨spanAt_of_drop buf p k _ hd hk, hs1,
    spanAt_of_drop buf (p + k.length + 1) v _ hdrop1 hv, hs2, hdrop2⟩

theorem rd_entry (buf : List Nat) (p : Nat) (k v : List Nat) (rest : List Item)
    (h : Boundary buf p (.entry k v :: rest))
    (hk0 : ∀ c ∈ k, c ≠ 0) (hkne : k ≠ []) : rd buf p = hd0 k ∧ rd buf p ≠ 0 := by
  cases k with
  | nil => exact absurd rfl hkne
  | cons c t =>
    have hd : buf.drop p = (c :: t) ++ 0 :: (v ++ 0 :: (flattenItems rest ++ [0])) := by
      have hb : buf.drop p = flattenItems (.entry (c :: t) v :: rest) ++ [0] := h
      rw [hb, flattenItems_cons]
      simp [flattenItem]
    have hrd : rd buf p = c := rd_of_drop_cons buf p c _ (by rw [hd]; rfl)
    exact ⟨hrd, by rw [hrd]; exact hk0 c (by simp)⟩

theorem get_next_entry (buf : List Nat) (p : Nat) (k v : List Nat) (rest : List Item)
    (sc f0 s0 : Option Nat)
    (h : Boundary buf p (.entry k v :: rest))
    (hk0 : ∀ c ∈ k, c ≠ 0) (hv0 : ∀ c ∈ v, c ≠ 0)
    (hkne : k ≠ []) (hk91 : hd0 k ≠ 91) :
    get_next buf ⟨p, sc, f0, s0⟩ =
      ⟨p + k.length + 1 + v.length + 1, sc, some p, some (p + k.length + 1)⟩ := by
  obtain ⟨hrd, hrd0⟩ := rd_entry buf p k v rest h hk0 hkne
  have hrd91 : rd buf p ≠ 91 := by rw [hrd]; exact hk91
  obtain ⟨hsp1, hs1, hsp2, hs2, hb⟩ := boundary_entry_step buf p k v rest h hk0 hv0
  have h0 : (rd buf p == 0) = false := by simpa using hrd0
  simp only [get_next, h0, Bool.false_eq_true, if_false,
    skipSecs_stop buf p hrd91 (buf.length + 1) sc, hs1, hs2]

/-- The section loop consumes exactly the leading markers before the first
entry, recording the last one. -/
theorem skipSecs_sections : ∀ (ms : List (List Nat)) (buf : List Nat) (p : Nat)
    (sc : Option Nat) (fuel : Nat) (k v : List Nat) (rest : List Item),
    Boundary buf p (ms.map Item.sec ++ Item.entry k v :: rest) →
    itemsWF (ms.map Item.sec ++ Item.entry k v :: rest) = true →
    noEmptyKey (ms.map Item.sec ++ Item.entry k v :: rest) = true →
    ms.length + 1 ≤ fuel →
    ∃ sc2 p2, skipSecs buf fuel p sc = (sc2, p2) ∧
      Boundary buf p2 (Item.entry k v :: rest) ∧
      itemsWF (Item.entry k v :: rest) = true ∧
      noEmptyKey (Item.entry k v :: rest) = true ∧
      sc2.map (spanAt buf) = msCur ms (sc.map (spanAt buf)) ∧
      p ≤ p2 := by
  intro ms
  induction ms with
  | nil =>
    intro buf p sc fuel k v rest hb hwf hnek hfuel
    simp only [List.map_nil, List.nil_append] at hb hwf hnek
    obtain ⟨hk0, hv0, hvne, hk91, hwfr⟩ := itemsWF_entry_cons k v rest hwf
    obtain ⟨hkne, hnekr⟩ := noEmptyKey_entry_cons k v rest hnek
    obtain ⟨hrd, hrd0⟩ := rd_entry buf p k v rest hb hk0 hkne
    have hrd91 : rd buf p ≠ 91 := by rw [hrd]; exact hk91 hkne
    exact ⟨sc, p, skipSecs_stop buf p hrd91 fuel sc, hb, hwf, hnek, rfl, le_refl p⟩
  | cons nm t ih =>
    intro buf p sc fuel k v rest hb hwf hnek hfuel
    simp only [List.map_cons, List.cons_append] at hb hwf hnek
    obtain ⟨hnm0, hwft⟩ := itemsWF_sec_cons nm _ hwf
    have hnekt := noEmptyKey_sec_cons nm _ hnek
    obtain ⟨hrd, hspan1, hskip, hbt⟩ := boundary_sec_step buf p nm _ hb hnm0
    cases fuel with
    | zero => simp at hfuel
    | succ f =>
      have hrdb : (rd buf p == 91) = true := by simp [hrd]
      have hstep : skipSecs buf (f + 1) p sc =
          skipSecs buf f (p + nm.length + 2) (some (p + 1)) := by
        simp [skipSecs, hrdb, hskip]
      obtain ⟨sc2, p2, heq, hb2, hwf2, hnek2, hdec, hle⟩ :=
        ih buf (p + nm.length + 2) (some (p + 1)) f k v rest hbt hwft hnekt
          (by simp only [List.length_cons] at hfuel; omega)
      refine ⟨sc2, p2, by rw [hstep, heq], hb2, hwf2, hnek2, ?_, by omega⟩
      rw [hdec]
      simp only [Option.map_some']
      rw [hspan1, msCur_cons]

/-- One advance of the cursor from an item boundary: consume the leading
markers (keeping the last), then materialise the first entry. -/
theorem get_next_boundary (ms : List (List Nat)) (buf : List Nat) (p : Nat)
    (sc f0 s0 : Option Nat) (k v : List Nat) (rest : List Item)
    (hb : Boundary buf p (ms.map Item.sec ++ Item.entry k v :: rest))
    (hwf : itemsWF (ms.map Item.sec ++ Item.entry k v :: rest) = true)
    (hnek : noEmptyKey (ms.map Item.sec ++ Item.entry k v :: rest) = true) :
    ∃ sc2 p2,
      get_next buf ⟨p, sc, f0, s0⟩ =
        ⟨p2 + k.length + 1 + v.length + 1, sc2, some p2, some (p2 + k.length + 1)⟩ ∧
      spanAt buf p2 = k ∧ spanAt buf (p2 + k.length + 1) = v ∧
      Boundary buf (p2 + k.length + 1 + v.length + 1) rest ∧
      sc2.map (spanAt buf) = msCur ms (sc.map (spanAt buf)) ∧
      p ≤ p2 ∧
      itemsWF (Item.entry k v :: rest) = true ∧
      noEmptyKey (Item.entry k v :: rest) = true ∧
      skipSecs buf (buf.length + 1) p sc = (sc2, p2) ∧
      Boundary buf p2 (Item.entry k v :: rest) := by
  have hfuel : ms.length + 1 ≤ buf.length + 1 := by
    have h1 := boundary_length buf p _ hb
    have h2 := flattenItems_len_ge (ms.map Item.sec ++ Item.entry k v :: rest)
    have h3 : ms.length ≤ (ms.map Item.sec ++ Item.entry k v :: rest).length := by
      simp
    omega
  obtain ⟨sc2, p2, heq, hb2, hwf2, hnek2, hdec, hle⟩ :=
    skipSecs_sections ms buf p sc (buf.length + 1) k v rest hb hwf hnek hfuel
  obtain ⟨hk0, hv0, hvne, hk91, hwfr⟩ := itemsWF_entry_cons k v rest hwf2
  obtain ⟨hkne, hnekr⟩ := noEmptyKey_entry_cons k v rest hnek2
  have hrdp : rd buf p ≠ 0 := by
    cases ms with
    | nil =>
      simp only [List.map_nil, List.nil_append] at hb
      exact (rd_entry buf p k v rest hb hk0 hkne).2
    | cons nm t =>
      simp only [List.map_cons, List.cons_append] at hb hwf
      obtain ⟨hnm0, _⟩ := itemsWF_sec_cons nm _ hwf
      have h91 := (boundary_sec_step buf p nm _ hb hnm0).1
      omega
  obtain ⟨hsp1, hs1, hsp2, hs2, hbr⟩ := boundary_entry_step buf p2 k v rest hb2 hk0 hv0
  refine ⟨sc2, p2, ?_, hsp1, hsp2, hbr, hdec, hle, hwf2, hnek2, heq, hb2⟩
  have h0 : (rd buf p == 0) = false := by simpa using hrdp
  simp only [get_next, h0, Bool.false_eq_true, if_false, heq, hs1, hs2]

theorem endsEntry_split : ∀ (ms : List (List Nat)) (k v : List Nat) (rest : List Item),
    endsEntry (ms.map Item.sec ++ Item.entry k v :: rest) = true → endsEntry rest = true := by
  intro ms
  induction ms with
  | nil => intro k v rest h; exact endsEntry_entry_cons k v rest h
  | cons nm t ih =>
    intro k v rest h
    simp only [List.map_cons, List.cons_append] at h
    obtain ⟨_, h2⟩ := endsEntry_sec_cons nm _ h
    exact ih k v rest h2

theorem iterRun_boundary_nil (buf : List Nat) (p : Nat) (sc f0 s0 : Option Nat) (fuel : Nat)
    (hb : Boundary buf p []) (hfuel : 1 ≤ fuel) :
    iterRun buf ⟨buf.length - 1, none, none, none⟩ fuel (get_next buf ⟨p, sc, f0, s0⟩) =
      some [] := by
  obtain ⟨hpl, hrd⟩ := boundary_nil buf p hb
  rw [get_next_at_end buf ⟨p, sc, f0, s0⟩ hrd]
  cases fuel with
  | zero => omega
  | succ f =>
    have hp : p = buf.length - 1 := by omega
    have heqb : iterEq { (⟨p, sc, f0, s0⟩ : Iter) with first := none }
        ⟨buf.length - 1, none, none, none⟩ = true := by
      simp [iterEq, hp]
    simp only [iterRun, heqb, if_true]

/-- Iterating from an item boundary after one advance yields exactly the
logical entries, each with the nearest preceding marker as its section. -/
theorem iterRun_boundary : ∀ (N : Nat) (its : List Item), its.length ≤ N →
    ∀ (buf : List Nat) (p : Nat) (sc f0 s0 : Option Nat) (fuel : Nat),
    Boundary buf p its → itemsWF its = true → noEmptyKey its = true →
    endsEntry its = true → its.length + 1 ≤ fuel →
    iterRun buf ⟨buf.length - 1, none, none, none⟩ fuel (get_next buf ⟨p, sc, f0, s0⟩) =
      some (entriesFrom (sc.map (spanAt buf)) its) := by
  intro N
  induction N with
  | zero =>
    intro its hlen buf p sc f0 s0 fuel hb hwf hnek hee hfuel
    have hnil : its = [] := List.length_eq_zero.mp (by omega)
    subst hnil
    simpa [entriesFrom] using iterRun_boundary_nil buf p sc f0 s0 fuel hb (by omega)
  | succ N ih =>
    intro its hlen buf p sc f0 s0 fuel hb hwf hnek hee hfuel
    by_cases hnil : its = []
    · subst hnil
      simpa [entriesFrom] using iterRun_boundary_nil buf p sc f0 s0 fuel hb (by omega)
    · obtain ⟨ms, k, v, rest, hsplit⟩ := split_of_endsEntry its hee hnil
      subst hsplit
      obtain ⟨sc2, p2, hgn, hsp1, hsp2, hbr, hdec, hple, hwf2, hnek2, hskq, hb2⟩ :=
        get_next_boundary ms buf p sc f0 s0 k v rest hb hwf hnek
      obtain ⟨hk0, hv0, hvne, hk91, hwfr⟩ := itemsWF_entry_cons k v rest hwf2
      obtain ⟨hkne, hnekr⟩ := noEmptyKey_entry_cons k v rest hnek2
      have heer : endsEntry rest = true := endsEntry_split ms k v rest hee
      have hlen2 : rest.length ≤ N := by
        simp only [List.length_append, List.length_map, List.length_cons] at hlen
        omega
      have hlen3 : (ms.map Item.sec ++ Item.entry k v :: rest).length = ms.length + 1 + rest.length := by
        simp only [List.length_append, List.length_map, List.length_cons]
        omega
      rw [hgn]
      cases fuel with
      | zero => simp at hfuel
      | succ f =>
        have hne : iterEq
            ⟨p2 + k.length + 1 + v.length + 1, sc2, some p2, some (p2 + k.length + 1)⟩
            ⟨buf.length - 1, none, none, none⟩ = false := by
          simp [iterEq]
        have hrec := ih rest hlen2 buf (p2 + k.length + 1 + v.length + 1) sc2
          (some p2) (some (p2 + k.length + 1)) f hbr hwfr hnekr heer
          (by rw [hlen3] at hfuel; omega)
        simp only [iterRun, hne, Bool.false_eq_true, if_false]
        rw [hrec]
        simp only [Option.map_some']
        rw [entriesFrom_split, hsp1, hsp2, hdec]

/-! ## Claim-level assembly helpers -/

theorem endIt_canonical (s : List Nat) (n : Nat) (h : verify_and_size s = .ok n) :
    endIt s = ⟨n, none, none, none⟩ ∧ (kvp_buffer s).length = n + 1 ∧
    Boundary (kvp_buffer s) 0 (items s) ∧ rd (kvp_buffer s) n = 0 := by
  obtain ⟨hfill, hlen, hwf⟩ := pack_structure s n h
  have hfl : (fillWrites s).length = n := by rw [hfill]; exact hlen
  have hbl : (kvp_buffer s).length = n + 1 := by
    simp [kvp_buffer, hfl]
  have hb0 : Boundary (kvp_buffer s) 0 (items s) := by
    simp [Boundary, kvp_buffer, hfill]
  have hvs : verifySize s = n := by simp [verifySize, h]
  have hrd : rd (kvp_buffer s) n = 0 := by
    have hd : (kvp_buffer s).drop n = [0] := by
      rw [kvp_buffer, ← hfl]
      exact List.drop_left _ _
    exact rd_of_drop_cons _ n 0 [] hd
  refine ⟨?_, hbl, hb0, hrd⟩
  rw [endIt, hvs, mkIter,
    skipSecs_stop (kvp_buffer s) n (by rw [hrd]; omega) ((kvp_buffer s).length + 1) none]
  exact get_next_at_end (kvp_buffer s) ⟨n, none, none, none⟩ hrd

theorem beginIt_eq (s : List Nat) (n : Nat) (h : verify_and_size s = .ok n)
    (hnek : noEmptyKey (items s) = true)
    (hsplit : items s = [] ∨ ∃ (ms : List (List Nat)) (k v : List Nat) (rest : List Item),
      items s = ms.map Item.sec ++ Item.entry k v :: rest) :
    beginIt s = get_next (kvp_buffer s) ⟨0, none, none, none⟩ := by
  obtain ⟨hfill, hlen, hwf⟩ := pack_structure s n h
  have hb0 : Boundary (kvp_buffer s) 0 (items s) := by
    simp [Boundary, kvp_buffer, hfill]
  rcases hsplit with hnil | ⟨ms, k, v, rest, hsp⟩
  · rw [hnil] at hb0
    obtain ⟨_, hrd⟩ := boundary_nil (kvp_buffer s) 0 hb0
    rw [beginIt, mkIter,
      skipSecs_stop (kvp_buffer s) 0 (by rw [hrd]; omega) ((kvp_buffer s).length + 1) none]
  · rw [hsp] at hb0 hwf hnek
    obtain ⟨sc2, p2, hgn, hsp1, hsp2, hbr, hdec, hple, hwf2, hnek2, hskq, hb2⟩ :=
      get_next_boundary ms (kvp_buffer s) 0 none none none k v rest hb0 hwf hnek
    obtain ⟨hk0, hv0, hvne, hk91, hwfr⟩ := itemsWF_entry_cons k v rest hwf2
    obtain ⟨hkne, hnekr⟩ := noEmptyKey_entry_cons k v rest hnek2
    rw [beginIt, mkIter, hskq, hgn]
    exact get_next_entry (kvp_buffer s) p2 k v rest sc2 none none hb2 hk0 hv0 hkne (hk91 hkne)

theorem items_split_cases (s : List Nat) (hee : endsEntry (items s) = true) :
    items s = [] ∨ ∃ (ms : List (List Nat)) (k v : List Nat) (rest : List Item),
      items s = ms.map Item.sec ++ Item.entry k v :: rest := by
  by_cases hni : items s = []
  · exact Or.inl hni
  · exact Or.inr (split_of_endsEntry (items s) hee hni)

/-- Whole-store iteration on an accepted input with non-empty keys and a
final entry yields exactly the logical entries with their sections. -/
theorem iterEntries_ok (s : List Nat) (n : Nat) (h : verify_and_size s = .ok n)
    (hnek : noEmptyKey (items s) = true) (hee : endsEntry (items s) = true) :
    iterEntries s = some (entriesFrom none (items s)) := by
  obtain ⟨hend, hbl, hb0, hrd⟩ := endIt_canonical s n h
  obtain ⟨hfill, hlen, hwf⟩ := pack_structure s n h
  rw [iterEntries, hend, beginIt_eq s n h hnek (items_split_cases s hee)]
  have hn : n = (kvp_buffer s).length - 1 := by omega
  have hfuel : (items s).length + 1 ≤ (kvp_buffer s).length + 2 := by
    have h1 := boundary_length (kvp_buffer s) 0 (items s) hb0
    have h2 := flattenItems_len_ge (items s)
    omega
  rw [hn]
  have hit := iterRun_boundary (items s).length (items s) le_rfl (kvp_buffer s) 0
    none none none ((kvp_buffer s).length + 2) hb0 hwf hnek hee hfuel
  simpa using hit

/-! ## Lookup machinery for `get` -/

theorem stringmatch_iff (a : List Nat) : ∀ b, (∀ c ∈ a, c ≠ 0) → (∀ c ∈ b, c ≠ 0) →
    (stringmatch a b = true ↔ a = b) := by
  induction a with
  | nil =>
    intro b ha hb
    cases b with
    | nil => simp [stringmatch]
    | cons d bs =>
      have hd : d ≠ 0 := hb d (by simp)
      simp [stringmatch, hd]
  | cons c as ih =>
    intro b ha hb
    have hc : c ≠ 0 := ha c (by simp)
    cases b with
    | nil => simp [stringmatch, hc]
    | cons d bs =>
      by_cases hcd : (c == d) = true
      · have hceq : c = d := by simpa using hcd
        subst hceq
        have hc0 : (c == 0) = false := by simpa using hc
        have hrec := ih bs (fun x hx => ha x (by simp [hx]))
          (fun x hx => hb x (by simp [hx]))
        simp [stringmatch, hc0, hrec]
      · have hcne : c ≠ d := by simpa using hcd
        simp [stringmatch, hcd, hcne]

theorem lookupKey_split : ∀ (ms : List (List Nat)) (k v key : List Nat) (rest : List Item),
    lookupKey (ms.map Item.sec ++ Item.entry k v :: rest) key =
      if k = key then some v else lookupKey rest key := by
  intro ms
  induction ms with
  | nil => intro k v key rest; rfl
  | cons nm t ih =>
    intro k v key rest
    simp only [List.map_cons, List.cons_append, lookupKey]
    exact ih k v key rest

theorem lookup_key_entry : ∀ (its : List Item) (key vv : List Nat),
    lookupKey its key = some vv → Item.entry key vv ∈ its := by
  intro its
  induction its with
  | nil => intro key vv h; simp [lookupKey] at h
  | cons i l ih =>
    intro key vv h
    cases i with
    | sec nm =>
      simp only [lookupKey] at h
      exact List.mem_cons_of_mem _ (ih key vv h)
    | entry k2 v2 =>
      simp only [lookupKey] at h
      by_cases hk : k2 = key
      · rw [if_pos hk] at h
        injection h with h2
        rw [← hk, ← h2]
        exact List.mem_cons_self _ _
      · rw [if_neg hk] at h
        exact List.mem_cons_of_mem _ (ih key vv h)

theorem itemsWF_mem_entry (its : List Item) (k v : List Nat)
    (h : itemsWF its = true) (hm : Item.entry k v ∈ its) :
    (∀ c ∈ k, c ≠ 0) ∧ (∀ c ∈ v, c ≠ 0) ∧ v ≠ [] := by
  have hall := List.all_eq_true.mp h _ hm
  simp only [Bool.and_eq_true] at hall
  obtain ⟨⟨⟨hk, hv⟩, hve⟩, _⟩ := hall
  exact ⟨fun c hc => by simpa using List.all_eq_true.mp hk c hc,
    fun c hc => by simpa using List.all_eq_true.mp hv c hc,
    by simpa [List.isEmpty_iff] using hve⟩

/-- The search loop of `get`, started at an item boundary, returns the first
value whose key span matches. -/
theorem getLoop_boundary : ∀ (N : Nat) (its : List Item), its.length ≤ N →
    ∀ (buf : List Nat) (p : Nat) (sc f0 s0 : Option Nat) (fuel : Nat)
      (e : Iter) (key vv : List Nat),
    Boundary buf p its → itemsWF its = true → noEmptyKey its = true →
    lookupKey its key = some vv → (∀ c ∈ key, c ≠ 0) →
    e.first = none →
    its.length + 1 ≤ fuel →
    getLoop buf e key fuel (get_next buf ⟨p, sc, f0, s0⟩) = some vv := by
  intro N
  induction N with
  | zero =>
    intro its hlen buf p sc f0 s0 fuel e key vv hb hwf hnek hlk hkey0 hef hfuel
    have hnil : its = [] := List.length_eq_zero.mp (by omega)
    rw [hnil] at hlk
    simp [lookupKey] at hlk
  | succ N ih =>
    intro its hlen buf p sc f0 s0 fuel e key vv hb hwf hnek hlk hkey0 hef hfuel
    have hne : its ≠ [] := by
      intro hnil
      rw [hnil] at hlk
      simp [lookupKey] at hlk
    obtain ⟨ms, k, v, rest, hsp⟩ := split_of_lookup its key vv hlk
    subst hsp
    obtain ⟨sc2, p2, hgn, hsp1, hsp2, hbr, hdec, hple, hwf2, hnek2, hskq, hb2⟩ :=
      get_next_boundary ms buf p sc f0 s0 k v rest hb hwf hnek
    obtain ⟨hk0, hv0, hvne, hk91, hwfr⟩ := itemsWF_entry_cons k v rest hwf2
    obtain ⟨hkne, hnekr⟩ := noEmptyKey_entry_cons k v rest hnek2
    rw [hgn]
    cases fuel with
    | zero => simp at hfuel
    | succ f =>
      have hneq : iterEq
          ⟨p2 + k.length + 1 + v.length + 1, sc2, some p2, some (p2 + k.length + 1)⟩ e = false := by
        simp [iterEq, hef]
      rw [lookupKey_split] at hlk
      by_cases hkk : k = key
      · rw [if_pos hkk] at hlk
        injection hlk with hlk2
        have hsm : stringmatch (spanAt buf p2) key = true := by
          rw [hsp1]
          exact (stringmatch_iff k key hk0 hkey0).mpr hkk
        simp only [getLoop, hneq, Bool.false_eq_true, if_false, hsm, if_true]
        rw [hsp2, hlk2]
      · rw [if_neg hkk] at hlk
        have hsm : stringmatch (spanAt buf p2) key = false := by
          rw [hsp1]
          cases hsmb : stringmatch k key with
          | false => rfl
          | true => exact absurd ((stringmatch_iff k key hk0 hkey0).mp hsmb) hkk
        have hlen2 : rest.length ≤ N := by
          simp only [List.length_append, List.length_map, List.length_cons] at hlen
          omega
        have hlen3 : (ms.map Item.sec ++ Item.entry k v :: rest).length =
            ms.length + 1 + rest.length := by
          simp only [List.length_append, List.length_map, List.length_cons]
          omega
        have hrec := ih rest hlen2 buf (p2 + k.length + 1 + v.length + 1) sc2
          (some p2) (some (p2 + k.length + 1)) f e key vv hbr hwfr hnekr hlk hkey0 hef
          (by rw [hlen3] at hfuel; omega)
        simp only [getLoop, hneq, Bool.false_eq_true, if_false, hsm]
        exact hrec

/-- Lemma: `get` on an accepted input with non-empty keys returns the value of the
first entry with the given key. -/
theorem get_ok (s : List Nat) (n : Nat) (h : verify_and_size s = .ok n)
    (hnek : noEmptyKey (items s) = true) (key vv : List Nat)
    (hlk : lookupKey (items s) key = some vv) :
    get s key = some vv := by
  obtain ⟨hend, hbl, hb0, hrd⟩ := endIt_canonical s n h
  obtain ⟨hfill, hlen, hwf⟩ := pack_structure s n h
  have hkey0 : ∀ c ∈ key, c ≠ 0 := by
    have hm := lookup_key_entry (items s) key vv hlk
    exact (itemsWF_mem_entry (items s) key vv hwf hm).1
  have hfuel : (items s).length + 1 ≤ (kvp_buffer s).length + 2 := by
    have h1 := boundary_length (kvp_buffer s) 0 (items s) hb0
    have h2 := flattenItems_len_ge (items s)
    omega
  have hunf : get s key =
      getLoop (kvp_buffer s) (endIt s) key ((kvp_buffer s).length + 2) (beginIt s) := rfl
  rw [hunf, hend, beginIt_eq s n h hnek (Or.inr (split_of_lookup _ key vv hlk))]
  exact getLoop_boundary (items s).length (items s) le_rfl (kvp_buffer s) 0 none none none
    ((kvp_buffer s).length + 2) ⟨n, none, none, none⟩ key vv hb0 hwf hnek hlk hkey0 rfl hfuel

/-! ## Equality of the compile-time and run-time accessor families -/

theorem trygetLoop_eq_getLoop (buf : List Nat) (e : Iter) (key : List Nat) :
    ∀ (fuel : Nat) (it : Iter), trygetLoop buf e key fuel it = getLoop buf e key fuel it := by
  intro fuel
  induction fuel with
  | zero => intro it; rfl
  | succ f ih =>
    intro it
    simp only [trygetLoop, getLoop, ih]

theorem trygetSecLoop_eq_getSecLoop (buf : List Nat) (e : Iter) (key : List Nat) :
    ∀ (fuel : Nat) (it : Iter), trygetSecLoop buf e key fuel it = getSecLoop buf e key fuel it := by
  intro fuel
  induction fuel with
  | zero => intro it; rfl
  | succ f ih =>
    intro it
    simp only [trygetSecLoop, getSecLoop, ih]

theorem tryget_eq_get (s key : List Nat) : tryget s key = get s key :=
  trygetLoop_eq_getLoop (kvp_buffer s) (endIt s) key ((kvp_buffer s).length + 2) (beginIt s)

theorem trygetInSec_eq_getInSec (s name key : List Nat) :
    trygetInSec s name key = getInSec s name key := by
  unfold trygetInSec getInSec
  cases beginSec s name with
  | none => rfl
  | some b =>
    cases endSec s name with
    | none => rfl
    | some e =>
      simp only [Option.bind_some, Option.some_bind, Option.bind]
      exact trygetSecLoop_eq_getSecLoop (kvp_buffer s) e key ((kvp_buffer s).length + 2) b

theorem trycontains_eq_contains (s key : List Nat) :
    trycontainsKey s key = containsKey s key := by
  unfold trycontainsKey containsKey
  rw [tryget_eq_get]

theorem trycontainsSec_eq_containsSec (s name key : List Nat) :
    trycontainsSecKey s name key = containsSecKey s name key := by
  unfold trycontainsSecKey containsSecKey
  rw [trygetInSec_eq_getInSec]

/-! ## Helpers for the section view -/

theorem itemsWF_ms : ∀ (ms : List (List Nat)) (X : List Item),
    itemsWF (ms.map Item.sec ++ X) = true → ∀ nm ∈ ms, ∀ c ∈ nm, c ≠ 0 := by
  intro ms
  induction ms with
  | nil => intro X _ nm hnm; simp at hnm
  | cons a t ih =>
    intro X h nm hnm
    simp only [List.map_cons, List.cons_append] at h
    obtain ⟨ha, ht⟩ := itemsWF_sec_cons a _ h
    rcases List.mem_cons.mp hnm with hnm | hnm
    · rw [hnm]; exact ha
    · exact ih X ht nm hnm

theorem msCur_zero_free (ms : List (List Nat)) (cur : Option (List Nat)) (X : List Item)
    (hwf : itemsWF (ms.map Item.sec ++ X) = true)
    (hcur : ∀ nm2, cur = some nm2 → ∀ c ∈ nm2, c ≠ 0) :
    ∀ nm2, msCur ms cur = some nm2 → ∀ c ∈ nm2, c ≠ 0 := by
  intro nm2 hm
  cases hg : ms.getLast? with
  | none =>
    rw [msCur, hg] at hm
    exact hcur nm2 hm
  | some nm =>
    rw [msCur, hg] at hm
    injection hm with hm2
    rw [← hm2]
    exact itemsWF_ms ms X hwf nm (List.mem_of_mem_getLast? hg)

theorem head_dropWhile_false {α : Type} (p : α → Bool) :
    ∀ (l : List α) (y : α), ((l.dropWhile p).head? = some y) → p y = false := by
  intro l
  induction l with
  | nil => intro y h; simp [List.dropWhile] at h
  | cons a t ih =>
    intro y h
    rw [List.dropWhile_cons] at h
    by_cases hp : p a = true
    · rw [if_pos hp] at h
      exact ih y h
    · rw [if_neg hp] at h
      simp only [List.head?_cons, Option.some.injEq] at h
      rw [← h]
      simpa using hp

theorem beginSecLoop_nil (buf : List Nat) (p : Nat) (sc f0 s0 : Option Nat)
    (fuel : Nat) (name : List Nat)
    (hb : Boundary buf p []) (hfuel : 1 ≤ fuel) :
    ∃ b, beginSecLoop buf ⟨buf.length - 1, none, none, none⟩ name fuel
        (get_next buf ⟨p, sc, f0, s0⟩) = some b ∧
      b.pos = buf.length - 1 ∧ b.first = none := by
  obtain ⟨hpl, hrd⟩ := boundary_nil buf p hb
  rw [get_next_at_end buf ⟨p, sc, f0, s0⟩ hrd,
    show ({ (⟨p, sc, f0, s0⟩ : Iter) with first := none }) = (⟨p, sc, none, s0⟩ : Iter) from rfl]
  cases fuel with
  | zero => omega
  | succ f =>
    have hp : p = buf.length - 1 := by omega
    have hgn2 : get_next buf ⟨p, sc, none, s0⟩ = ⟨p, sc, none, s0⟩ := by
      rw [get_next_at_end buf ⟨p, sc, none, s0⟩ hrd]
    have hiq : iterEq ⟨p, sc, none, s0⟩ ⟨buf.length - 1, none, none, none⟩ = true := by
      simp [iterEq, hp]
    refine ⟨⟨p, sc, none, s0⟩, ?_, hp, rfl⟩
    cases hsm : secMatches buf name sc with
    | true => simp only [beginSecLoop, hsm, if_true]
    | false =>
      simp only [beginSecLoop, hsm, Bool.false_eq_true, if_false, hgn2, hiq, if_true]

/-- The `begin(section)` scan from an item boundary: if no entry's section
matches, it stops at (an iterator equal to) `end()`; otherwise it stops at
the first matching entry, which is itself a materialised boundary state. -/
theorem beginSecLoop_boundary : ∀ (N : Nat) (its : List Item), its.length ≤ N →
    ∀ (buf : List Nat) (p : Nat) (sc f0 s0 : Option Nat) (fuel : Nat) (name : List Nat),
    Boundary buf p its → itemsWF its = true → noEmptyKey its = true → endsEntry its = true →
    (∀ nm2, sc.map (spanAt buf) = some nm2 → ∀ c ∈ nm2, c ≠ 0) →
    (∀ c ∈ name, c ≠ 0) →
    its.length + 1 ≤ fuel →
    (((entriesFrom (sc.map (spanAt buf)) its).all (fun x => !(x.1 == some name))) = true →
      ∃ b, beginSecLoop buf ⟨buf.length - 1, none, none, none⟩ name fuel
          (get_next buf ⟨p, sc, f0, s0⟩) = some b ∧
        b.pos = buf.length - 1 ∧ b.first = none) ∧
    ((entriesFrom (sc.map (spanAt buf)) its).dropWhile (fun x => !(x.1 == some name)) ≠ [] →
      ∃ (p3 : Nat) (sc3 : Option Nat) (ms3 : List (List Nat))
        (k3 v3 : List Nat) (rest3 : List Item),
        beginSecLoop buf ⟨buf.length - 1, none, none, none⟩ name fuel
            (get_next buf ⟨p, sc, f0, s0⟩) =
          some (get_next buf ⟨p3, sc3, none, none⟩) ∧
        Boundary buf p3 (ms3.map Item.sec ++ Item.entry k3 v3 :: rest3) ∧
        itemsWF (ms3.map Item.sec ++ Item.entry k3 v3 :: rest3) = true ∧
        noEmptyKey (ms3.map Item.sec ++ Item.entry k3 v3 :: rest3) = true ∧
        endsEntry (ms3.map Item.sec ++ Item.entry k3 v3 :: rest3) = true ∧
        (∀ nm2, sc3.map (spanAt buf) = some nm2 → ∀ c ∈ nm2, c ≠ 0) ∧
        msCur ms3 (sc3.map (spanAt buf)) = some name ∧
        entriesFrom (sc3.map (spanAt buf)) (ms3.map Item.sec ++ Item.entry k3 v3 :: rest3) =
          (entriesFrom (sc.map (spanAt buf)) its).dropWhile (fun x => !(x.1 == some name))) := by
  intro N
  induction N with
  | zero =>
    intro its hlen buf p sc f0 s0 fuel name hb hwf hnek hee hsc0 hname0 hfuel
    have hnil : its = [] := List.length_eq_zero.mp (by omega)
    subst hnil
    refine ⟨fun _ => beginSecLoop_nil buf p sc f0 s0 fuel name hb (by omega), fun hmatch => ?_⟩
    exact absurd (by simp [entriesFrom]) hmatch
  | succ N ih =>
    intro its hlen buf p sc f0 s0 fuel name hb hwf hnek hee hsc0 hname0 hfuel
    by_cases hnil : its = []
    · subst hnil
      refine ⟨fun _ => beginSecLoop_nil buf p sc f0 s0 fuel name hb (by omega), fun hmatch => ?_⟩
      exact absurd (by simp [entriesFrom]) hmatch
    · obtain ⟨ms, k, v, rest, hsplit⟩ := split_of_endsEntry its hee hnil
      subst hsplit
      obtain ⟨sc2, p2, hgn, hsp1, hsp2, hbr, hdec, hple, hwf2, hnek2, hskq, hb2⟩ :=
        get_next_boundary ms buf p sc f0 s0 k v rest hb hwf hnek
      obtain ⟨hk0, hv0, hvne, hk91, hwfr⟩ := itemsWF_entry_cons k v rest hwf2
      obtain ⟨hkne, hnekr⟩ := noEmptyKey_entry_cons k v rest hnek2
      have heer : endsEntry rest = true := endsEntry_split ms k v rest hee
      have hes : entriesFrom (sc.map (spanAt buf)) (ms.map Item.sec ++ Item.entry k v :: rest) =
          (msCur ms (sc.map (spanAt buf)), k, v) ::
            entriesFrom (msCur ms (sc.map (spanAt buf))) rest :=
        entriesFrom_split ms _ k v rest
      have hcur0 : ∀ nm2, sc2.map (spanAt buf) = some nm2 → ∀ c ∈ nm2, c ≠ 0 := by
        rw [hdec]
        exact msCur_zero_free ms _ _ hwf hsc0
      rw [hgn]
      cases fuel with
      | zero => simp at hfuel
      | succ f =>
        have hlen2 : rest.length ≤ N := by
          simp only [List.length_append, List.length_map, List.length_cons] at hlen
          omega
        have hfuel2 : rest.length + 1 ≤ f := by
          have h3 : (ms.map Item.sec ++ Item.entry k v :: rest).length =
              ms.length + 1 + rest.length := by
            simp only [List.length_append, List.length_map, List.length_cons]
            omega
          rw [h3] at hfuel
          omega
        cases hsm : secMatches buf name sc2 with
        | true =>
          -- current section matches: the loop stops at this entry
          have hspn : ∃ sp, sc2 = some sp ∧ spanAt buf sp = name := by
            cases hsc2 : sc2 with
            | none => rw [hsc2] at hsm; simp [secMatches] at hsm
            | some sp =>
              rw [hsc2] at hsm
              simp only [secMatches] at hsm
              refine ⟨sp, rfl, ?_⟩
              have h0f : ∀ c ∈ spanAt buf sp, c ≠ 0 := by
                apply hcur0
                rw [hsc2]
                rfl
              exact (stringmatch_iff (spanAt buf sp) name h0f hname0).mp hsm
          obtain ⟨sp, hsc2, hspan⟩ := hspn
          have hcurname : msCur ms (sc.map (spanAt buf)) = some name := by
            rw [← hdec, hsc2]
            simp [hspan]
          constructor
          · intro hall
            exfalso
            rw [hes] at hall
            simp only [List.all_cons, Bool.and_eq_true] at hall
            rw [hcurname] at hall
            simp at hall
          · intro hmatch
            refine ⟨p, sc, ms, k, v, rest, ?_, hb, hwf, hnek, hee, hsc0, hcurname, ?_⟩
            · obtain ⟨sc2b, p2b, hgnb, _, _, _, _, _, _, _, hskqb, _⟩ :=
                get_next_boundary ms buf p sc none none k v rest hb hwf hnek
              rw [hskq] at hskqb
              injection hskqb with hq1 hq2
              rw [hgnb, ← hq1, ← hq2]
              simp only [beginSecLoop]
              rw [hsc2]
              simp only [secMatches, hspan]
              have hsmn : stringmatch name name = true :=
                (stringmatch_iff name name hname0 hname0).mpr rfl
              rw [hsmn]
              simp
            · rw [hes, hcurname, List.dropWhile_cons]
              simp
        | false =>
          -- current section does not match: the loop advances
          have hheadne : (msCur ms (sc.map (spanAt buf)) == some name) = false := by
            cases hsc2 : sc2 with
            | none =>
              rw [hsc2] at hdec
              simp only [Option.map_none'] at hdec
              rw [← hdec]
              rfl
            | some sp =>
              rw [hsc2] at hsm hdec
              simp only [secMatches] at hsm
              simp only [Option.map_some'] at hdec
              have h0f : ∀ c ∈ spanAt buf sp, c ≠ 0 := by
                apply hcur0
                rw [hsc2]
                rfl
              have hne : spanAt buf sp ≠ name := by
                intro hx
                rw [(stringmatch_iff (spanAt buf sp) name h0f hname0).mpr hx] at hsm
                exact Bool.noConfusion hsm
              rw [← hdec]
              simpa using hne
          by_cases hrest : rest = []
          · subst hrest
            obtain ⟨hpl2, hrd2⟩ := boundary_nil buf _ hbr
            have hgn2 : get_next buf
                ⟨p2 + k.length + 1 + v.length + 1, sc2, some p2, some (p2 + k.length + 1)⟩ =
                ⟨p2 + k.length + 1 + v.length + 1, sc2, none, some (p2 + k.length + 1)⟩ := by
              rw [get_next_at_end buf _ hrd2]
            have hiq : iterEq
                ⟨p2 + k.length + 1 + v.length + 1, sc2, none, some (p2 + k.length + 1)⟩
                ⟨buf.length - 1, none, none, none⟩ = true := by
              simp only [iterEq]
              have : p2 + k.length + 1 + v.length + 1 = buf.length - 1 := by omega
              simp [this]
            constructor
            · intro _
              refine ⟨⟨p2 + k.length + 1 + v.length + 1, sc2, none, some (p2 + k.length + 1)⟩,
                ?_, ?_, rfl⟩
              · simp only [beginSecLoop, hsm, Bool.false_eq_true, if_false, hgn2, hiq, if_true]
              · show p2 + k.length + 1 + v.length + 1 = buf.length - 1
                omega
            · intro hmatch
              exfalso
              apply hmatch
              rw [hes, List.dropWhile_cons]
              simp [entriesFrom, hheadne]
          · obtain ⟨ms2, k2, v2, rest2, hsplit2⟩ := split_of_endsEntry rest heer hrest
            have hIH := ih rest hlen2 buf (p2 + k.length + 1 + v.length + 1) sc2
              (some p2) (some (p2 + k.length + 1)) f name hbr hwfr hnekr heer hcur0 hname0 hfuel2
            -- the advanced state is an entry state, not equal to end()
            rw [hsplit2] at hbr hwfr hnekr
            obtain ⟨sc2c, p2c, hgnc, _, _, _, _, _, _, _, _, _⟩ :=
              get_next_boundary ms2 buf (p2 + k.length + 1 + v.length + 1) sc2
                (some p2) (some (p2 + k.length + 1)) k2 v2 rest2 hbr hwfr hnekr
            have hiqf : iterEq
                ⟨p2c + k2.length + 1 + v2.length + 1, sc2c, some p2c, some (p2c + k2.length + 1)⟩
                ⟨buf.length - 1, none, none, none⟩ = false := by
              simp [iterEq]
            have hloop : beginSecLoop buf ⟨buf.length - 1, none, none, none⟩ name (f + 1)
                ⟨p2 + k.length + 1 + v.length + 1, sc2, some p2, some (p2 + k.length + 1)⟩ =
                beginSecLoop buf ⟨buf.length - 1, none, none, none⟩ name f
                  (get_next buf
                    ⟨p2 + k.length + 1 + v.length + 1, sc2, some p2, some (p2 + k.length + 1)⟩) := by
              simp only [beginSecLoop, hsm, Bool.false_eq_true, if_false, hgnc, hiqf]
            have hheadne2 : (sc2.map (spanAt buf) == some name) = false := by
              rw [hdec]
              exact hheadne
            constructor
            · intro hall
              rw [hes] at hall
              simp only [List.all_cons, Bool.and_eq_true] at hall
              have hall2 := hall.2
              rw [← hdec] at hall2
              obtain ⟨b, hbeq, hbpos, hbfirst⟩ := hIH.1 hall2
              exact ⟨b, by rw [hloop]; exact hbeq, hbpos, hbfirst⟩
            · intro hmatch
              have hmatch2 : (entriesFrom (sc2.map (spanAt buf)) rest).dropWhile
                  (fun x => !(x.1 == some name)) ≠ [] := by
                intro hx
                apply hmatch
                rw [hes, ← hdec, List.dropWhile_cons]
                simp only [hheadne2, Bool.not_false, if_true]
                exact hx
              obtain ⟨p3, sc3, ms3, k3, v3, rest3, hbeq, hB1, hB2, hB3, hB4, hB5, hB6, hB7⟩ :=
                hIH.2 hmatch2
              refine ⟨p3, sc3, ms3, k3, v3, rest3, by rw [hloop]; exact hbeq,
                hB1, hB2, hB3, hB4, hB5, hB6, ?_⟩
              rw [hB7, hes, ← hdec, List.dropWhile_cons]
              simp only [hheadne2, Bool.not_false, if_true]

theorem msCur_some (ms : List (List Nat)) (nm0 : List Nat) :
    ∃ nm4, msCur ms (some nm0) = some nm4 ∧ (nm4 = nm0 ∨ nm4 ∈ ms) := by
  cases hg : ms.getLast? with
  | none => exact ⟨nm0, by rw [msCur, hg], Or.inl rfl⟩
  | some nm => exact ⟨nm, by rw [msCur, hg], Or.inr (List.mem_of_mem_getLast? hg)⟩

/-- From a matching entry state, `end(section)` advances past the matching
run, and iterating from the matching state to its result yields exactly that
contiguous run. -/
theorem endSecRange_boundary : ∀ (N : Nat) (its3 : List Item), its3.length ≤ N →
    ∀ (buf : List Nat) (p3 : Nat) (sc3 : Option Nat) (fuel : Nat) (name : List Nat)
      (ms3 : List (List Nat)) (k3 v3 : List Nat) (rest3 : List Item),
    its3 = ms3.map Item.sec ++ Item.entry k3 v3 :: rest3 →
    Boundary buf p3 its3 → itemsWF its3 = true → noEmptyKey its3 = true →
    endsEntry its3 = true →
    (∀ nm2, sc3.map (spanAt buf) = some nm2 → ∀ c ∈ nm2, c ≠ 0) →
    (∀ c ∈ name, c ≠ 0) →
    msCur ms3 (sc3.map (spanAt buf)) = some name →
    its3.length + 1 ≤ fuel →
    ∃ eIt, endSecLoop buf ⟨buf.length - 1, none, none, none⟩ name fuel
        (get_next buf ⟨p3, sc3, none, none⟩) = some eIt ∧
      (eIt.first = none ∨ ∃ q, eIt.first = some q ∧
        (get_next buf ⟨p3, sc3, none, none⟩).pos ≤ q) ∧
      (∀ fuel2, its3.length + 2 ≤ fuel2 →
        rangeRun buf eIt fuel2 (get_next buf ⟨p3, sc3, none, none⟩) =
          some ((entriesFrom (sc3.map (spanAt buf)) its3).takeWhile
            (fun x => x.1 == some name))) := by
  intro N
  induction N with
  | zero =>
    intro its3 hlen buf p3 sc3 fuel name ms3 k3 v3 rest3 hsp
    subst hsp
    intro _ _ _ _ _ _ _ _
    exfalso
    simp only [List.length_append, List.length_map, List.length_cons] at hlen
    omega
  | succ N ih =>
    intro its3 hlen buf p3 sc3 fuel name ms3 k3 v3 rest3 hsp hb hwf hnek hee hsc0 hname0 hms hfuel
    subst hsp
    obtain ⟨sc2, p2, hgn, hsp1, hsp2, hbr, hdec, hple, hwf2, hnek2, hskq, hb2⟩ :=
      get_next_boundary ms3 buf p3 sc3 none none k3 v3 rest3 hb hwf hnek
    obtain ⟨hk0, hv0, hvne, hk91, hwfr⟩ := itemsWF_entry_cons k3 v3 rest3 hwf2
    obtain ⟨hkne, hnekr⟩ := noEmptyKey_entry_cons k3 v3 rest3 hnek2
    have heer : endsEntry rest3 = true := endsEntry_split ms3 k3 v3 rest3 hee
    have hdecn : sc2.map (spanAt buf) = some name := by rw [hdec, hms]
    have hes : entriesFrom (sc3.map (spanAt buf))
        (ms3.map Item.sec ++ Item.entry k3 v3 :: rest3) =
        (some name, k3, v3) :: entriesFrom (some name) rest3 := by
      rw [entriesFrom_split, hms]
    have hlen1 : 1 ≤ (ms3.map Item.sec ++ Item.entry k3 v3 :: rest3).length := by
      simp only [List.length_append, List.length_map, List.length_cons]
      omega
    rw [hgn]
    cases fuel with
    | zero => omega
    | succ f =>
      by_cases hrest : rest3 = []
      · subst hrest
        obtain ⟨hpl2, hrd2⟩ := boundary_nil buf _ hbr
        have hgn2 : get_next buf
            ⟨p2 + k3.length + 1 + v3.length + 1, sc2, some p2, some (p2 + k3.length + 1)⟩ =
            ⟨p2 + k3.length + 1 + v3.length + 1, sc2, none, some (p2 + k3.length + 1)⟩ := by
          rw [get_next_at_end buf _ hrd2]
        have hiq : iterEq
            ⟨p2 + k3.length + 1 + v3.length + 1, sc2, none, some (p2 + k3.length + 1)⟩
            ⟨buf.length - 1, none, none, none⟩ = true := by
          simp only [iterEq]
          have hpp : p2 + k3.length + 1 + v3.length + 1 = buf.length - 1 := by omega
          simp [hpp]
        refine ⟨⟨p2 + k3.length + 1 + v3.length + 1, sc2, none, some (p2 + k3.length + 1)⟩,
          ?_, Or.inl rfl, ?_⟩
        · simp only [endSecLoop, hgn2, hiq, if_true]
        · intro fuel2 hf2
          cases fuel2 with
          | zero => simp at hf2
          | succ f2 =>
            cases f2 with
            | zero => omega
            | succ g =>
              have hiqXE : iterEq
                  ⟨p2 + k3.length + 1 + v3.length + 1, sc2, some p2, some (p2 + k3.length + 1)⟩
                  ⟨p2 + k3.length + 1 + v3.length + 1, sc2, none, some (p2 + k3.length + 1)⟩ =
                  false := by
                simp [iterEq]
              have hiqEE : iterEq
                  ⟨p2 + k3.length + 1 + v3.length + 1, sc2, none, some (p2 + k3.length + 1)⟩
                  ⟨p2 + k3.length + 1 + v3.length + 1, sc2, none, some (p2 + k3.length + 1)⟩ =
                  true := by
                simp [iterEq]
              simp only [rangeRun, hiqXE, Bool.false_eq_true, if_false, hgn2, hiqEE, if_true]
              rw [hes]
              simp only [entriesFrom, List.takeWhile_cons, hdecn, hsp1, hsp2]
              simp [List.takeWhile]
      · obtain ⟨ms2, k2, v2, rest2, hsplit2⟩ := split_of_endsEntry rest3 heer hrest
        rw [hsplit2] at hbr hwfr hnekr heer
        obtain ⟨sc2c, p2c, hgnc, hsp1c, hsp2c, hbrc, hdecc, hplec, hwf2c, hnek2c, hskqc, hb2c⟩ :=
          get_next_boundary ms2 buf (p2 + k3.length + 1 + v3.length + 1) sc2
            (some p2) (some (p2 + k3.length + 1)) k2 v2 rest2 hbr hwfr hnekr
        obtain ⟨nm4, hnm4, hnm4src⟩ := msCur_some ms2 name
        have hdecc2 : sc2c.map (spanAt buf) = some nm4 := by
          rw [hdecc, hdecn, hnm4]
        obtain ⟨sp4, hsc2c, hspan4⟩ := Option.map_eq_some'.mp hdecc2
        have hnm40 : ∀ c ∈ nm4, c ≠ 0 := by
          rcases hnm4src with hh | hh
          · rw [hh]; exact hname0
          · exact itemsWF_ms ms2 _ hwfr nm4 hh
        rw [hsc2c] at hgnc
        have hiqf : iterEq
            ⟨p2c + k2.length + 1 + v2.length + 1, some sp4, some p2c, some (p2c + k2.length + 1)⟩
            ⟨buf.length - 1, none, none, none⟩ = false := by
          simp [iterEq]
        have hlen2 : rest3.length ≤ N := by
          simp only [List.length_append, List.length_map, List.length_cons] at hlen
          omega
        cases hsm4 : stringmatch nm4 name with
        | true =>
          have hnm4name : nm4 = name := (stringmatch_iff nm4 name hnm40 hname0).mp hsm4
          have hsc20 : ∀ nm2, sc2.map (spanAt buf) = some nm2 → ∀ c ∈ nm2, c ≠ 0 := by
            intro nm2 hm
            rw [hdecn] at hm
            injection hm with hm2
            rw [← hm2]
            exact hname0
          have hms2 : msCur ms2 (sc2.map (spanAt buf)) = some name := by
            rw [hdecn, hnm4, hnm4name]
          have hIH := ih rest3 hlen2 buf (p2 + k3.length + 1 + v3.length + 1) sc2 f name
            ms2 k2 v2 rest2 hsplit2 (by rw [← hsplit2] at hbr; exact hbr)
            (by rw [← hsplit2] at hwfr; exact hwfr) (by rw [← hsplit2] at hnekr; exact hnekr)
            (by rw [← hsplit2] at heer; exact heer) hsc20 hname0 hms2
            (by simp only [List.length_append, List.length_map, List.length_cons] at hfuel
                omega)
          obtain ⟨eIt, hend, hfc, hrange⟩ := hIH
          -- get_next at the boundary with (none, none) junk equals the one with the real junk
          obtain ⟨sc2d, p2d, hgnd, _, _, _, _, _, _, _, hskqd, _⟩ :=
            get_next_boundary ms2 buf (p2 + k3.length + 1 + v3.length + 1) sc2
              none none k2 v2 rest2 hbr hwfr hnekr
          rw [hskqc] at hskqd
          injection hskqd with hqq1 hqq2
          rw [← hqq1, ← hqq2, hsc2c] at hgnd
          rw [hgnd] at hend hrange hfc
          refine ⟨eIt, ?_, ?_, ?_⟩
          · simp only [endSecLoop, hgnc, hiqf, Bool.false_eq_true, if_false]
            simp only [hspan4, hsm4, if_true]
            exact hend
          · rcases hfc with hh | ⟨q, hq1, hq2⟩
            · exact Or.inl hh
            · refine Or.inr ⟨q, hq1, ?_⟩
              have hq2b : p2c + k2.length + 1 + v2.length + 1 ≤ q := hq2
              show p2 + k3.length + 1 + v3.length + 1 ≤ q
              omega
          · intro fuel2 hf2
            cases fuel2 with
            | zero => simp at hf2
            | succ f2 =>
              have hiqXe : iterEq
                  ⟨p2 + k3.length + 1 + v3.length + 1, sc2, some p2, some (p2 + k3.length + 1)⟩
                  eIt = false := by
                rcases hfc with hh | ⟨q, hq1, hq2⟩
                · simp [iterEq, hh]
                · have hq2b : p2c + k2.length + 1 + v2.length + 1 ≤ q := hq2
                  have hpq : p2 ≠ q := by omega
                  simp [iterEq, hq1, hpq]
              simp only [rangeRun, hiqXe, Bool.false_eq_true, if_false, hgnc]
              have hr2 := hrange f2 (by
                simp only [List.length_append, List.length_map, List.length_cons] at hf2
                omega)
              rw [hr2]
              simp only [Option.map_some', hdecn, hsp1, hsp2]
              rw [hes]
              rw [List.takeWhile_cons]
              simp
        | false =>
          have hnm4ne : nm4 ≠ name := by
            intro hx
            rw [(stringmatch_iff nm4 name hnm40 hname0).mpr hx] at hsm4
            exact Bool.noConfusion hsm4
          refine ⟨⟨p2c + k2.length + 1 + v2.length + 1, some sp4, some p2c,
            some (p2c + k2.length + 1)⟩, ?_, ?_, ?_⟩
          · simp only [endSecLoop, hgnc, hiqf, Bool.false_eq_true, if_false]
            simp only [hspan4, hsm4, Bool.false_eq_true, if_false]
          · refine Or.inr ⟨p2c, rfl, ?_⟩
            show p2 + k3.length + 1 + v3.length + 1 ≤ p2c
            omega
          · intro fuel2 hf2
            cases fuel2 with
            | zero => simp at hf2
            | succ f2 =>
              cases f2 with
              | zero => omega
              | succ g =>
                have hiqXe : iterEq
                    ⟨p2 + k3.length + 1 + v3.length + 1, sc2, some p2, some (p2 + k3.length + 1)⟩
                    ⟨p2c + k2.length + 1 + v2.length + 1, some sp4, some p2c,
                      some (p2c + k2.length + 1)⟩ = false := by
                  have hpq : p2 ≠ p2c := by omega
                  simp [iterEq, hpq]
                have hiqEE : iterEq
                    ⟨p2c + k2.length + 1 + v2.length + 1, some sp4, some p2c,
                      some (p2c + k2.length + 1)⟩
                    ⟨p2c + k2.length + 1 + v2.length + 1, some sp4, some p2c,
                      some (p2c + k2.length + 1)⟩ = true := by
                  simp [iterEq]
                simp only [rangeRun, hiqXe, Bool.false_eq_true, if_false, hgnc, hiqEE, if_true]
                rw [hes, hsplit2]
                rw [entriesFrom_split, hnm4]
                simp only [List.takeWhile_cons, hdecn, hsp1, hsp2]
                have hbne : ((some nm4 : Option (List Nat)) == some name) = false := by
                  simpa using hnm4ne
                simp [hbne]

/-- The section view on an accepted, well-formed input is exactly the first
contiguous run of entries whose section equals the name; if no entry
matches, `begin(name)` lands on `end()`. -/
theorem secRange_ok (s : List Nat) (n : Nat) (h : verify_and_size s = .ok n)
    (hnek : noEmptyKey (items s) = true) (hee : endsEntry (items s) = true)
    (name : List Nat) (hname0 : ∀ c ∈ name, c ≠ 0) :
    secRange s name = some (((entriesFrom none (items s)).dropWhile
        (fun x => !(x.1 == some name))).takeWhile (fun x => x.1 == some name)) ∧
    ((entriesFrom none (items s)).all (fun x => !(x.1 == some name)) = true →
      ∃ b, beginSec s name = some b ∧ iterEq b (endIt s) = true) := by
  obtain ⟨hend, hbl, hb0, hrd⟩ := endIt_canonical s n h
  obtain ⟨hfill, hlen, hwf⟩ := pack_structure s n h
  have hfuel : (items s).length + 1 ≤ (kvp_buffer s).length + 2 := by
    have h1 := boundary_length (kvp_buffer s) 0 (items s) hb0
    have h2 := flattenItems_len_ge (items s)
    omega
  have hbeg := beginIt_eq s n h hnek (items_split_cases s hee)
  have hBS := beginSecLoop_boundary (items s).length (items s) le_rfl (kvp_buffer s) 0
    none none none ((kvp_buffer s).length + 2) name hb0 hwf hnek hee
    (by intro nm2 hm; simp at hm) hname0 hfuel
  simp only [Option.map_none'] at hBS
  have hn1 : n = (kvp_buffer s).length - 1 := by omega
  have hbsu : beginSec s name = beginSecLoop (kvp_buffer s) (endIt s) name
      ((kvp_buffer s).length + 2) (beginIt s) := rfl
  have hesu : endSec s name = (beginSec s name).bind
      (endSecLoop (kvp_buffer s) (endIt s) name ((kvp_buffer s).length + 2)) := rfl
  have hsru : secRange s name = (beginSec s name).bind fun b =>
      (endSec s name).bind fun e =>
        rangeRun (kvp_buffer s) e ((kvp_buffer s).length + 2) b := rfl
  have hL2 : (kvp_buffer s).length + 2 = ((kvp_buffer s).length + 1) + 1 := rfl
  by_cases hdw : (entriesFrom none (items s)).dropWhile (fun x => !(x.1 == some name)) = []
  · have hall : (entriesFrom none (items s)).all (fun x => !(x.1 == some name)) = true :=
      List.all_eq_true.mpr (fun x hx => List.dropWhile_eq_nil_iff.mp hdw x hx)
    obtain ⟨b, hbeq, hbpos, hbfirst⟩ := hBS.1 hall
    have hbsec : beginSec s name = some b := by
      rw [hbsu, hend, hbeg, hn1]
      exact hbeq
    have hrdb : rd (kvp_buffer s) b.pos = 0 := by
      rw [hbpos, ← hn1]
      exact hrd
    have hbobj : get_next (kvp_buffer s) b = b := by
      obtain ⟨bp, bs, bf, bs2⟩ := b
      simp only at hbfirst
      subst hbfirst
      exact get_next_at_end (kvp_buffer s) ⟨bp, bs, none, bs2⟩ hrdb
    have hiqb : iterEq b (endIt s) = true := by
      rw [hend]
      obtain ⟨bp, bs, bf, bs2⟩ := b
      simp only at hbfirst hbpos
      subst hbfirst
      simp [iterEq, hbpos, hn1]
    have hendsec : endSec s name = some b := by
      rw [hesu, hbsec, Option.some_bind, hL2]
      simp only [endSecLoop, hbobj, hiqb, if_true]
    constructor
    · rw [hsru, hbsec, hendsec, Option.some_bind, Option.some_bind, hdw, hL2]
      have hiqbb : iterEq b b = true := by simp [iterEq]
      simp only [rangeRun, hiqbb, if_true, List.takeWhile_nil]
    · intro _
      exact ⟨b, hbsec, hiqb⟩
  · obtain ⟨p3, sc3, ms3, k3, v3, rest3, hbeq, hB1, hB2, hB3, hB4, hB5, hB6, hB7⟩ :=
      hBS.2 hdw
    have hfuel3 : (ms3.map Item.sec ++ Item.entry k3 v3 :: rest3).length + 1 ≤
        (kvp_buffer s).length + 1 := by
      have h1 := boundary_length (kvp_buffer s) p3 _ hB1
      have h2 := flattenItems_len_ge (ms3.map Item.sec ++ Item.entry k3 v3 :: rest3)
      omega
    obtain ⟨eIt, hendloop, hfc, hrange⟩ :=
      endSecRange_boundary (ms3.map Item.sec ++ Item.entry k3 v3 :: rest3).length
        (ms3.map Item.sec ++ Item.entry k3 v3 :: rest3) le_rfl (kvp_buffer s) p3 sc3
        ((kvp_buffer s).length + 2) name ms3 k3 v3 rest3 rfl hB1 hB2 hB3 hB4 hB5 hname0 hB6
        (by omega)
    have hbsec : beginSec s name = some (get_next (kvp_buffer s) ⟨p3, sc3, none, none⟩) := by
      rw [hbsu, hend, hbeg, hn1]
      exact hbeq
    have hendsec : endSec s name = some eIt := by
      rw [hesu, hbsec, Option.some_bind, hend, hn1]
      exact hendloop
    constructor
    · rw [hsru, hbsec, hendsec, Option.some_bind, Option.some_bind]
      rw [hrange ((kvp_buffer s).length + 2) (by omega), hB7]
    · intro hall
      exfalso
      exact hdw (List.dropWhile_eq_nil_iff.mpr (fun x hx => List.all_eq_true.mp hall x hx))

theorem lookup_isSome_of_kvPairs : ∀ (its : List Item) (kk vv2 : List Nat),
    (kk, vv2) ∈ its.filterMap (fun i => match i with
      | Item.entry k v => some (k, v)
      | Item.sec _ => none) →
    (lookupKey its kk).isSome = true := by
  intro its
  induction its with
  | nil => intro kk vv2 hm; simp at hm
  | cons i l ih =>
    intro kk vv2 hm
    cases i with
    | sec nm =>
      simp only [List.filterMap_cons] at hm
      exact ih kk vv2 hm
    | entry k v =>
      simp only [List.filterMap_cons, List.mem_cons] at hm
      by_cases hk : k = kk
      · simp [lookupKey, hk]
      · rcases hm with hm | hm
        · injection hm with hm1 hm2
          exact absurd hm1.symm hk
        · simp only [lookupKey, if_neg hk]
          exact ih kk vv2 hm

/-! ## Claims -/

/-- C1: for every input accepted by the validator, the packer writes exactly
`verify_and_size()` characters through `bptr`, so with the final NUL the
buffer of `verify_and_size() + 1` cells is filled exactly — no over- or
under-run. -/
theorem C1_packer_fills_buffer_exactly (s : List Nat) (n : Nat)
    (h : verify_and_size s = .ok n) :
    (fillWrites s).length = n ∧ (kvp_buffer s).length = n + 1 := by
  obtain ⟨hfill, hlen, _⟩ := pack_structure s n h
  have h1 : (fillWrites s).length = n := by rw [hfill]; exact hlen
  exact ⟨h1, by simp [kvp_buffer, h1]⟩

theorem C1_witness :
    (fillWrites (str "[net]\na = 1")).length = 9 ∧
    (kvp_buffer (str "[net]\na = 1")).length = 10 :=
  C1_packer_fills_buffer_exactly (str "[net]\na = 1") 9 (by decide)

/-- C2 counterexample: with duplicate keys, `get` returns the FIRST value,
so the second `a=2` line does not round-trip: `get("a")` is `"1"`, not `"2"`,
even though `("a","2")` is one of the key=value lines. -/
theorem C2_counterexample :
    verify_and_size (str "a=1\na=2") = .ok 8 ∧
    ([97], [50]) ∈ kvPairs (str "a=1\na=2") ∧
    get (str "a=1\na=2") [97] ≠ some [50] := by decide

/-- C2 (amended): on an accepted input in which every trimmed key is
non-empty, `get` with a trimmed key returns the trimmed value of the FIRST
key=value line with that key (`lookupKey`); and every key=value line's key
does have a first value. -/
theorem C2_roundtrip_first (s : List Nat) (n : Nat)
    (h : verify_and_size s = .ok n) (hnek : noEmptyKey (items s) = true) :
    (∀ key vv, lookupKey (items s) key = some vv → get s key = some vv) ∧
    (∀ key vv, (key, vv) ∈ kvPairs s → (lookupKey (items s) key).isSome = true) := by
  refine ⟨fun key vv hlk => get_ok s n h hnek key vv hlk, fun key vv hm => ?_⟩
  exact lookup_isSome_of_kvPairs (items s) key vv hm

theorem C2_witness :
    get (str "a=1\nb = two words ") [98] = some [116, 119, 111, 32, 119, 111, 114, 100, 115, 32] :=
  (C2_roundtrip_first (str "a=1\nb = two words ") 17 (by decide) (by decide)).1
    [98] [116, 119, 111, 32, 119, 111, 114, 100, 115, 32] (by decide)

/-- C3 counterexample: the validator accepts `[]` (empty section name) and
`=v` (empty key), so accepted inputs may contain zero-length section-name
and key spans. -/
theorem C3_counterexample :
    verify_and_size (str "[]\n=v") = .ok 5 ∧
    items (str "[]\n=v") = [Item.sec [], Item.entry [] [118]] := by decide

/-- C3 (amended): on accepted inputs every entry's VALUE span is non-empty
(the validator throws `"No value!"` otherwise); key spans and section names
may be empty. -/
theorem C3_values_nonempty (s : List Nat) (n : Nat)
    (h : verify_and_size s = .ok n) :
    ∀ k v, Item.entry k v ∈ items s → v ≠ [] := by
  intro k v hm
  exact (itemsWF_mem_entry (items s) k v (pack_structure s n h).2.2 hm).2.2

theorem C3_witness : ([118] : List Nat) ≠ [] :=
  C3_values_nonempty (str "k=v") 4 (by decide) [107] [118] (by decide)

/-- C4 counterexample: a section line with characters after `]` (here
`[abc]xyz`) is ACCEPTED — `verify_and_size` does not throw
`"Bad section tag!"`; the trailing characters are silently ignored. -/
theorem C4_counterexample :
    hd0 (skipws (str "[abc]xyz")) = 91 ∧
    secStopV (skipws (str "[abc]xyz")).tail = 93 ∧
    verify_and_size (str "[abc]xyz\nk=v") = .ok 9 ∧
    verify_and_size (str "[abc]xyz\nk=v") ≠ .error "Bad section tag!" := by decide

/-- C4 (amended): a line that begins (after leading whitespace) with `[` and
contains a matching `]` before end-of-line is always accepted, with
trailing characters after `]` ignored: the line contributes exactly the
name-plus-two-terminators size, and the packer writes `[`, the name and one
NUL, nothing more. -/
theorem C4_trailing_after_bracket_accepted (s : List Nat)
    (hb : hd0 (skipws s) = 91) (hstop : secStopV (skipws s).tail = 93) :
    verifyLine s = .ok ((secNameV (skipws s).tail).length + 2) ∧
    fillLine s = 91 :: secNameV (skipws s).tail ++ [0] := by
  have hbc' : (iseol (hd0 (skipws s)) || iscomment (hd0 (skipws s))) = false := by
    rw [hb]; decide
  have hsec : (hd0 (skipws s) == 91) = true := by rw [hb]; decide
  have hil : iseol (secStopV (skipws s).tail) = false := by rw [hstop]; decide
  obtain ⟨t, ht⟩ : ∃ t, skipws s = 91 :: t := by
    cases hsk : skipws s with
    | nil => rw [hsk] at hb; simp [hd0] at hb
    | cons a u =>
      rw [hsk] at hb
      simp only [hd0] at hb
      exact ⟨u, by rw [hb]⟩
  constructor
  · simp only [verifyLine, hbc', Bool.false_eq_true, if_false, hsec, if_true, hil]
  · simp only [fillLine, hbc', Bool.false_eq_true, if_false, hsec, if_true]
    have htl : (skipws s).tail = t := by rw [ht]; rfl
    rw [htl] at hil ⊢
    rw [ht]
    simp only [secPack]
    rw [secName_eq t hil]

theorem C4_witness :
    verifyLine (str "[ab]zz") = .ok ((secNameV (skipws (str "[ab]zz")).tail).length + 2) ∧
    fillLine (str "[ab]zz") = 91 :: secNameV (skipws (str "[ab]zz")).tail ++ [0] :=
  C4_trailing_after_bracket_accepted (str "[ab]zz") (by decide) (by decide)

/-- C5 counterexample: the packed buffer stores the section marker `[ab]`
as `[ab` followed by a NUL — the OPENING bracket is kept (the cursor uses it
as an in-buffer tag), only the closing bracket is stripped; the span at the
marker position is not the bare name `ab`. -/
theorem C5_counterexample :
    kvp_buffer (str "[ab]\nk=v") = [91, 97, 98, 0, 107, 0, 118, 0, 0] ∧
    spanAt (kvp_buffer (str "[ab]\nk=v")) 0 ≠ [97, 98] := by decide

/-- C5 (amended): on accepted inputs the packer writes, for each section
marker, the opening `[` followed by the bare name (closing `]` stripped) and
one NUL, and for each entry its key span, one NUL, its value span, one NUL
(`flattenItem`); the iterator exposes the bare name by pointing one past
the `[`. -/
theorem C5_marker_layout (s : List Nat) (n : Nat)
    (h : verify_and_size s = .ok n) :
    fillWrites s = flattenItems (items s) :=
  (pack_structure s n h).1

theorem C5_witness :
    fillWrites (str "[ab]\nk=v") = flattenItems (items (str "[ab]\nk=v")) :=
  C5_marker_layout (str "[ab]\nk=v") 8 (by decide)

/-- C6 counterexample: on the accepted input `k=v\n[s]` (a trailing section
header with no following entry) iterating from `begin()` to `end()` does
NOT yield the entries with their sections: the cursor runs past the final
NUL and never compares equal to `end()`. -/
theorem C6_counterexample :
    verify_and_size (str "k=v\n[s]") = .ok 7 ∧
    entriesFrom none (items (str "k=v\n[s]")) = [(none, [107], [118])] ∧
    iterEntries (str "k=v\n[s]") ≠ some (entriesFrom none (items (str "k=v\n[s]"))) := by decide

/-- C6 (amended): on an accepted input in which every trimmed key is
non-empty and the last construct is an entry, iterating from `begin()` to
`end()` yields exactly the entries in order, each paired with the nearest
preceding section marker (`none` before any marker), with consecutive
marker runs collapsing to the last marker (`entriesFrom`). -/
theorem C6_iteration_sections (s : List Nat) (n : Nat)
    (h : verify_and_size s = .ok n) (hnek : noEmptyKey (items s) = true)
    (hee : endsEntry (items s) = true) :
    iterEntries s = some (entriesFrom none (items s)) :=
  iterEntries_ok s n h hnek hee

theorem C6_witness :
    iterEntries (str "a=1\n[n]\n[m]\nb=2") =
      some (entriesFrom none (items (str "a=1\n[n]\n[m]\nb=2"))) :=
  C6_iteration_sections (str "a=1\n[n]\n[m]\nb=2") 14 (by decide) (by decide) (by decide)

/-- C7 counterexample: on the accepted input `k=v\n[s]` with section name
`s`, no entry has section `s`, so by the claim `begin("s")` should be
`end()`; instead the scan runs past the final NUL, fabricates a state with
an empty key span at offset 7, and returns an iterator that is NOT equal to
`end()`. -/
theorem C7_counterexample :
    verify_and_size (str "k=v\n[s]") = .ok 7 ∧
    (∀ e ∈ entriesFrom none (items (str "k=v\n[s]")), e.1 ≠ some [115]) ∧
    beginSec (str "k=v\n[s]") [115] = some ⟨9, some 5, some 7, some 8⟩ ∧
    iterEq ⟨9, some 5, some 7, some 8⟩ (endIt (str "k=v\n[s]")) = false := by decide

/-- C7 (amended): on an accepted input with non-empty trimmed keys whose
last construct is an entry, and for a NUL-free section name, the range
`[begin(name), end(name))` contains exactly the FIRST contiguous run of
entries whose section equals `name` (later non-adjacent blocks with the
same name are excluded), and when no entry's section equals `name`,
`begin(name)` returns an iterator equal to `end()`. -/
theorem C7_section_range (s : List Nat) (n : Nat)
    (h : verify_and_size s = .ok n) (hnek : noEmptyKey (items s) = true)
    (hee : endsEntry (items s) = true)
    (name : List Nat) (hname0 : ∀ c ∈ name, c ≠ 0) :
    secRange s name = some (((entriesFrom none (items s)).dropWhile
        (fun x => !(x.1 == some name))).takeWhile (fun x => x.1 == some name)) ∧
    ((entriesFrom none (items s)).all (fun x => !(x.1 == some name)) = true →
      ∃ b, beginSec s name = some b ∧ iterEq b (endIt s) = true) :=
  secRange_ok s n h hnek hee name hname0

theorem C7_witness :
    secRange (str "x=0\n[n]\na=1\nb=2\n[m]\nc=3\n[n]\nd=4") [110] =
      some (((entriesFrom none (items (str "x=0\n[n]\na=1\nb=2\n[m]\nc=3\n[n]\nd=4"))).dropWhile
        (fun x => !(x.1 == some [110]))).takeWhile (fun x => x.1 == some [110])) :=
  (C7_section_range (str "x=0\n[n]\na=1\nb=2\n[m]\nc=3\n[n]\nd=4") 29 (by decide) (by decide)
    (by decide) [110] (by decide)).1

/-- C8: the boundary inputs fail with exactly the named errors —
`EmptyValue` is `"No value!"`, `MalformedSection` is `"Bad section tag!"`,
`MalformedKey` is `"Invalid key!"` — and a single bad line rejects the
whole input. -/
theorem C8_boundary_errors :
    verify_and_size (str "k=") = .error "No value!" ∧
    verify_and_size (str "[abc") = .error "Bad section tag!" ∧
    verify_and_size (str "key value=1") = .error "Invalid key!" ∧
    verify_and_size (str "a=1\nk=\nb=2") = .error "No value!" ∧
    verify_and_size (str "ok=fine\n[abc\nx=y") = .error "Bad section tag!" ∧
    verify_and_size (str "good=1\nkey value=1") = .error "Invalid key!" := by decide

/-- C9: the run-time accessors (`tryget`, `trycontains`, in both the
key-only and section+key forms) compute exactly the same functions over the
packed buffer as the compile-time `get` and `contains`. -/
theorem C9_try_accessors_agree (s name key : List Nat) :
    tryget s key = get s key ∧ trygetInSec s name key = getInSec s name key ∧
    trycontainsKey s key = containsKey s key ∧
    trycontainsSecKey s name key = containsSecKey s name key :=
  ⟨tryget_eq_get s key, trygetInSec_eq_getInSec s name key,
    trycontains_eq_contains s key, trycontainsSec_eq_containsSec s name key⟩

/-- C10 counterexample: on the accepted input `=v` (empty key),
`size()`/`kvpcount` counts one entry but iterating from `begin()` yields no
entry list at all — the first key span is empty, `begin()` dereferences a
null key and can never reach `end()`. -/
theorem C10_counterexample :
    verify_and_size (str "=v") = .ok 3 ∧ kvpcount (str "=v") = 1 ∧
    (iterEntries (str "=v")).map List.length ≠ some (kvpcount (str "=v")) := by decide

/-- C10 (amended): on an accepted input with non-empty trimmed keys whose
last construct is an entry, iteration from `begin()` to `end()` terminates
and yields exactly `kvpcount` entries. -/
theorem C10_size_eq_iteration (s : List Nat) (n : Nat)
    (h : verify_and_size s = .ok n) (hnek : noEmptyKey (items s) = true)
    (hee : endsEntry (items s) = true) :
    iterEntries s = some (entriesFrom none (items s)) ∧
    (entriesFrom none (items s)).length = kvpcount s := by
  refine ⟨iterEntries_ok s n h hnek hee, ?_⟩
  rw [entriesFrom_length]
  exact (kvpcount_entryCount (processedLines s)).symm

theorem C10_witness :
    iterEntries (str "[n]\na=1\nb=2") =
      some (entriesFrom none (items (str "[n]\na=1\nb=2"))) ∧
    (entriesFrom none (items (str "[n]\na=1\nb=2"))).length = kvpcount (str "[n]\na=1\nb=2") :=
  C10_size_eq_iteration (str "[n]\na=1\nb=2") 11 (by decide) (by decide) (by decide)
